import Mathlib

/-!
Verification development for the observability core of the repository:
the t-digest quantile sketch (src/core/util/tdigest.cc), the connectivity
state tracker (src/core/lib/transport/connectivity_state.cc) and the
config loader (src/core/config/load_config.cc).

Numeric model: the C++ code computes with IEEE doubles and int64.  We use
exact rationals for values and mathematical integers for counts; overflow
does not occur in the scenarios covered (counts stay far below 2^63), and
the spec itself tolerates IEEE drift only in `sum` (up to 1e-10), which the
exact model renders as exact equality.  The merge decisions of the t-digest
compare integer counts against a real-valued scale-function limit
(sin/asin); we model that comparison as a boolean decision family
(`FitsFam`) and instantiate it with the genuine arcsine scale function
(`grpcFits`) built from `Real.sin`/`Real.arcsin`.
-/

namespace GrpcCore

/-- DBL_MAX, the largest finite IEEE double, exactly: (2 - 2^-52) * 2^1023. -/
def dblMax : ℚ := 2 ^ 1024 - 2 ^ 971

/-- tdigest.cc line 27: `constexpr double kMaxCompression = 1e6;`. -/
def kMaxCompression : ℚ := 1000000

/-- tdigest.cc lines 31-35: `BoundedCompression` returns
`std::min(kMaxCompression, compression)`. -/
def BoundedCompression (compression : ℚ) : ℚ := min kMaxCompression compression

/-- tdigest.cc lines 38-41: maximum centroids kept by the merging t-digest,
`2 * ceil(BoundedCompression(compression))`. -/
def MaxCentroids (compression : ℚ) : ℤ := 2 * ⌈BoundedCompression compression⌉

/-- A centroid: pair of mean and count (tdigest.h, data model per spec section 3). -/
structure CentroidPod where
  mean : ℚ
  count : ℤ
deriving DecidableEq, Repr, Inhabited

/-- Modelled from the spec: `CentroidPod::operator<` lives in tdigest.h, which is
not among the sources; spec section 4.3.2 step 2 sorts centroids by
`(mean, count)` lexicographically. -/
def centLex (a b : CentroidPod) : Prop :=
  a.mean < b.mean ∨ (a.mean = b.mean ∧ a.count ≤ b.count)

instance : DecidableRel centLex := fun a b => by unfold centLex; infer_instance

instance : IsTotal CentroidPod centLex where
  total a b := by
    unfold centLex
    rcases lt_trichotomy a.mean b.mean with h | h | h
    · exact Or.inl (Or.inl h)
    · rcases le_total a.count b.count with hc | hc
      · exact Or.inl (Or.inr ⟨h, hc⟩)
      · exact Or.inr (Or.inr ⟨h.symm, hc⟩)
    · exact Or.inr (Or.inl h)

instance : IsTrans CentroidPod centLex where
  trans a b c hab hbc := by
    unfold centLex at *
    rcases hab with h1 | ⟨h1, h1c⟩ <;> rcases hbc with h2 | ⟨h2, h2c⟩
    · exact Or.inl (h1.trans h2)
    · exact Or.inl (h2 ▸ h1)
    · exact Or.inl (h1 ▸ h2)
    · exact Or.inr ⟨h1.trans h2, h1c.trans h2c⟩

/-- Sorting used by `DoMerge` (tdigest.cc line 121 `std::sort`).  With the
lexicographic order, elements comparing equivalent are equal pods, so the
sorted list is unique and any correct sort yields it; we use insertion sort
for computability. -/
def sortCentroids (l : List CentroidPod) : List CentroidPod :=
  l.insertionSort centLex

/-- The sum of the counts of a centroid list. -/
def sumCounts (l : List CentroidPod) : ℤ := (l.map CentroidPod.count).sum

/-- The sum of mean * count over a centroid list (the exact value of `sum_`). -/
def sumMeanCounts (l : List CentroidPod) : ℚ :=
  (l.map fun c => c.mean * (c.count : ℚ)).sum

/-- The merge decision `first_unmerged->count + merged_count <= q_limit`
(tdigest.cc line 145), abstracted: given the boundary count at which the
current `q_limit` was computed (`q0` corresponds to `k(boundary/total)`),
and the candidate cumulative count, decide whether it still fits. -/
abbrev FitsFun := ℤ → ℤ → Bool

/-- The decision family, indexed by compression and total count (the code
reads `compression_` and `count_` at the start of `DoMerge`). -/
abbrev FitsFam := ℚ → ℤ → FitsFun

/-- The t-digest state (fields of `TDigest` in tdigest.h, visible through
their uses in tdigest.cc). -/
structure TDigest where
  compression : ℚ
  batchSize : ℤ
  centroids : List CentroidPod
  merged : ℤ
  unmerged : ℤ
  min : ℚ
  max : ℚ
  sum : ℚ
  count : ℤ
deriving DecidableEq, Repr

/-- tdigest.cc lines 55-68: `TDigest::Reset`.  The state it produces does not
depend on the previous state. -/
def emptyTD (compression : ℚ) : TDigest :=
  let c := BoundedCompression compression
  { compression := c
    batchSize := 4 * MaxCentroids c
    centroids := []
    merged := 0
    unmerged := 0
    min := dblMax
    max := -dblMax
    sum := 0
    count := 0 }

/-- tdigest.cc lines 55-68: `Reset` as a method (ignores the old state). -/
def TDigest.reset (_s : TDigest) (compression : ℚ) : TDigest := emptyTD compression

/-- Modelled from the spec: `UpdateStats` is declared in tdigest.h (not under
src/); per spec section 4.3.1 it folds min, max, sum and count into the
running statistics. -/
def TDigest.updateStats (s : TDigest) (mn mx sm : ℚ) (cnt : ℤ) : TDigest :=
  { s with
    min := Min.min s.min mn
    max := Max.max s.max mx
    sum := s.sum + sm
    count := s.count + cnt }

/-- Accumulator for the merge loop of `DoMerge` (tdigest.cc lines 139-164):
already placed centroids (in reverse), the centroid being grown
(`last_merged`), the boundary count at which the current `q_limit` was
computed, the running `merged_count`, and the running `sum_`. -/
structure MergeAcc where
  placedRev : List CentroidPod
  lastMerged : CentroidPod
  b : ℤ
  mergedCount : ℤ
  sum : ℚ
deriving Repr

/-- Welford's online-mean absorption of centroid `c` into `last`
(tdigest.cc lines 146-151; count updated before the mean). -/
def welford (last c : CentroidPod) : CentroidPod :=
  ⟨last.mean + (c.mean - last.mean) * (c.count : ℚ) / ((last.count + c.count : ℤ) : ℚ),
   last.count + c.count⟩

/-- One iteration of the merge loop (tdigest.cc lines 142-164).  The absorb
branch applies Welford's update; the other branch finalizes `last_merged`,
recomputes the `q_limit` boundary from the current `merged_count`, and starts
a new centroid. -/
def mergeStep (fits : FitsFun) (acc : MergeAcc) (c : CentroidPod) : MergeAcc :=
  if fits acc.b (c.count + acc.mergedCount) then
    { acc with
      lastMerged := welford acc.lastMerged c
      mergedCount := acc.mergedCount + c.count }
  else
    { placedRev := acc.lastMerged :: acc.placedRev
      lastMerged := c
      b := acc.mergedCount
      mergedCount := acc.mergedCount + c.count
      sum := acc.sum + acc.lastMerged.mean * (acc.lastMerged.count : ℚ) }

/-- Direct-recursion formulation of the merge loop, used for reasoning; it
produces the merged centroid list from the loop state (current `q_limit`
boundary `b`, running `merged_count` `mc`, growing centroid `last`).  It is
proved below to agree with the `foldl` over `mergeStep`. -/
def mergeRecOut (fits : FitsFun) : ℤ → ℤ → CentroidPod → List CentroidPod → List CentroidPod
  | _, _, last, [] => [last]
  | b, mc, last, c :: rest =>
    if fits b (c.count + mc) then mergeRecOut fits b (mc + c.count) (welford last c) rest
    else last :: mergeRecOut fits mc (mc + c.count) c rest

/-- Ordering of centroids by mean. -/
def meanLE (a b : CentroidPod) : Prop := a.mean ≤ b.mean

/-- Split certificates of a merged centroid list: starting from `q_limit`
boundary `b` and cumulative count `cum`, every next centroid failed the merge
decision at the point where it was started, which forces a re-merge of the
list to keep every centroid separate. -/
def certs (fits : FitsFun) : ℤ → ℤ → List CentroidPod → Prop
  | _, _, [] => True
  | b, cum, c :: rest => fits b (cum + c.count) = false ∧ certs fits cum (cum + c.count) rest

/-- The facts about the merge decision family that the centroid-count bound
rests on, stated against a potential `φ` (instantiated below with the genuine
scale function `k(m / total)`): `φ` is monotone, zero at zero, bounded by the
compression on `[0, total]`, and a failed merge decision advances it by more
than 1. -/
structure ScaleOk (fits : FitsFun) (c : ℚ) (total : ℤ) (φ : ℤ → ℝ) : Prop where
  mono : ∀ {a b : ℤ}, a ≤ b → φ a ≤ φ b
  zero : φ 0 = 0
  bound : ∀ {m : ℤ}, 0 ≤ m → m ≤ total → φ m ≤ (c : ℝ)
  split : ∀ {b m : ℤ}, 0 ≤ b → 0 ≤ m → m ≤ total → fits b m = false → φ b + 1 < φ m


/-- tdigest.cc lines 113-174: `TDigest::DoMerge`.  Sorts the centroids, then
greedily merges from the left; afterwards re-derives `sum_`, `min_`, `max_`.
The code's initial `q0 = 0` coincides with the boundary count 0 (the genuine
scale function maps quantile 0 to centroid index 0). -/
def TDigest.doMerge (F : FitsFam) (s : TDigest) : TDigest :=
  if s.unmerged = 0 then s
  else
    match sortCentroids s.centroids with
    | [] => s
    | c0 :: rest =>
      let acc0 : MergeAcc := ⟨[], c0, 0, c0.count, 0⟩
      let acc := rest.foldl (mergeStep (F s.compression s.count)) acc0
      let outCents := acc.placedRev.reverse ++ [acc.lastMerged]
      { s with
        centroids := outCents
        merged := (outCents.length : ℤ)
        unmerged := 0
        sum := acc.sum + acc.lastMerged.mean * (acc.lastMerged.count : ℚ)
        min := Min.min s.min outCents.headI.mean
        max := Max.max s.max acc.lastMerged.mean }

/-- tdigest.cc lines 79-87: `AddUnmergedCentroid`; merges when the batch
fills. -/
def TDigest.addUnmergedCentroid (F : FitsFam) (s : TDigest) (c : CentroidPod) : TDigest :=
  let s1 : TDigest := { s with centroids := s.centroids ++ [c], unmerged := s.unmerged + 1 }
  if s1.unmerged = s1.batchSize then s1.doMerge F else s1

/-- tdigest.cc lines 70-77: `TDigest::Add`; a zero count is a no-op. -/
def TDigest.add (F : FitsFam) (s : TDigest) (val : ℚ) (cnt : ℤ) : TDigest :=
  if cnt = 0 then s
  else (s.updateStats val val (val * (cnt : ℚ)) cnt).addUnmergedCentroid F ⟨val, cnt⟩

/-- tdigest.cc lines 89-99: `TDigest::Merge`. -/
def TDigest.mergeD (F : FitsFam) (s that : TDigest) : TDigest :=
  let s1 := if s.compression = 0 then s.reset that.compression else s
  let s2 := s1.updateStats that.min that.max that.sum that.count
  that.centroids.foldl (fun t c => t.addUnmergedCentroid F c) s2

/-- tdigest.cc lines 43-49: `LinearInterpolate`.  (In ℚ a zero total weight
would yield 0; the code debug-checks `w1 + w2 > 0`, and every use below is
proved to have positive total weight.) -/
def LinearInterpolate (val1 val2 weight1 weight2 : ℚ) : ℚ :=
  (val1 * weight1 + val2 * weight2) / (weight1 + weight2)

/-- The loop of `TDigest::Quantile` (tdigest.cc lines 285-301) followed by the
final interpolation (lines 303-304).  `prev`/`cur` are the
(count, value) anchors `(prev_count, prev_val)` and `(this_count, this_val)`;
the list holds the centroids from the current index on. -/
def quantileGo (qc : ℚ) (total : ℤ) (mx : ℚ) :
    ℚ × ℚ → ℚ × ℚ → List CentroidPod → ℚ
  | prev, cur, [] => LinearInterpolate prev.2 cur.2 (cur.1 - qc) (qc - prev.1)
  | prev, cur, c :: rest =>
    if qc < cur.1 then LinearInterpolate prev.2 cur.2 (cur.1 - qc) (qc - prev.1)
    else
      let nxt : ℚ × ℚ :=
        match rest with
        | [] => ((total : ℚ), mx)
        | c2 :: _ => (cur.1 + ((c.count + c2.count : ℤ) : ℚ) / 2, c2.mean)
      quantileGo qc total mx cur nxt rest

/-- tdigest.cc lines 266-305: `TDigest::Quantile` on an already merged state
(after the `DoMerge()` call at line 270).  Returns `none` for the NaN of an
empty digest; a non-zero `merged_` with an empty buffer would read out of
bounds and is also `none` (it cannot occur for merged states). -/
def TDigest.quantileMerged (s : TDigest) (q : ℚ) : Option ℚ :=
  if s.merged = 0 then none
  else
    match s.centroids with
    | [] => none
    | c0 :: rest =>
      if s.merged = 1 then some c0.mean
      else
        some (quantileGo (q * (s.count : ℚ)) s.count s.max (0, s.min)
          (((c0.count : ℤ) : ℚ) / 2, c0.mean) (c0 :: rest))

/-- `TDigest::Quantile` including its state mutation: it first merges, then
reads the merged state. -/
def TDigest.quantileS (F : FitsFam) (s : TDigest) (q : ℚ) : Option ℚ × TDigest :=
  let s1 := s.doMerge F
  (s1.quantileMerged q, s1)

/-- Result of `Cdf`: a value, the NaN of an empty digest (or of the
unreachable fall-through at tdigest.cc line 263), or an out-of-bounds read of
the centroid buffer. -/
inductive CdfResult
  | val (q : ℚ)
  | nan
  | oob
deriving DecidableEq, Repr

/-- The equal-mean collapse loop of `Cdf` (tdigest.cc lines 240-243): while
`centroids_[i+1].mean == val` accumulate `centroids_[i].count +
centroids_[i+1].count`; evaluating the condition past the last element is an
out-of-bounds read. -/
def cdfCollapse (total : ℤ) (pAcc acc v : ℚ) : CentroidPod → List CentroidPod → CdfResult
  | _, [] => .oob
  | cur, nxt :: rest =>
    if nxt.mean = v then
      cdfCollapse total pAcc (acc + ((cur.count + nxt.count : ℤ) : ℚ)) v nxt rest
    else .val ((pAcc + acc) / 2 / (total : ℚ))

/-- The main scan of `Cdf` (tdigest.cc lines 235-260).  Each iteration reads
`centroids_[i+1]`: when the current element is the last one, every branch of
the body performs an out-of-bounds read. -/
def cdfGo (total : ℤ) (v : ℚ) (acc : ℚ) : CentroidPod → List CentroidPod → CdfResult
  | _, [] => .oob
  | cur, nxt :: rest =>
    if cur.mean = v then cdfCollapse total acc acc v cur (nxt :: rest)
    else if cur.mean ≤ v ∧ v < nxt.mean then
      let meanRatio : ℚ :=
        if nxt.mean ≤ cur.mean then 1 else (v - cur.mean) / (nxt.mean - cur.mean)
      .val ((acc + ((cur.count + nxt.count : ℤ) : ℚ) / 2 * meanRatio) / (total : ℚ))
    else cdfGo total v (acc + ((cur.count + nxt.count : ℤ) : ℚ) / 2) nxt rest

/-- tdigest.cc lines 201-264: `TDigest::Cdf` on an already merged state (after
the `DoMerge()` at line 202).  Note line 219: the single-centroid branch
returns `(val - min_) / (min_ - max_)`. -/
def TDigest.cdfMerged (s : TDigest) (v : ℚ) : CdfResult :=
  if s.merged = 0 then .nan
  else if v < s.min then .val 0
  else if s.max ≤ v then .val 1
  else if s.merged = 1 then .val ((v - s.min) / (s.min - s.max))
  else
    match s.centroids with
    | [] => .oob
    | c0 :: rest =>
      if v < c0.mean then
        .val (LinearInterpolate 0 (((c0.count : ℤ) : ℚ) / (s.count : ℚ) / 2)
          (c0.mean - v) (v - s.min))
      else
        let back := (c0 :: rest).getLast (List.cons_ne_nil c0 rest)
        if back.mean ≤ v then
          .val (LinearInterpolate (1 - ((back.count : ℤ) : ℚ) / (s.count : ℚ) / 2) 1
            (s.max - v) (v - back.mean))
        else cdfGo s.count v (((c0.count : ℤ) : ℚ) / 2) c0 rest

/-- `TDigest::Cdf` including its state mutation. -/
def TDigest.cdfS (F : FitsFam) (s : TDigest) (v : ℚ) : CdfResult × TDigest :=
  let s1 := s.doMerge F
  (s1.cdfMerged v, s1)

/-! ### Serialization

`ToString`/`FromString` exchange a '/'-separated line of numeric tokens.  We
model a token either as a numeric scalar (its rational value plus whether the
literal is in integer form, i.e. `absl::SimpleAtoi` accepts it) or as a
centroid pair `mean:count`.  Min, max, sum and the centroid means are printed
with `%0.17g` (tdigest.cc lines 314, 319, 323), which round-trips doubles
exactly, so those tokens are faithfully represented by their values; counts
are printed with `%d`, also exactly.  The compression alone is printed via
`absl::StrCat(compression_)` (line 308), i.e. six-significant-digit `%g`
formatting, so its token carries the value rounded to six significant decimal
digits. -/

/-- Round to the nearest integer, ties to even, as the decimal formatting of
printf does. -/
def roundEven (x : ℚ) : ℤ :=
  if Int.fract x = 1/2 then 2 * round (x / 2) else round x

/-- The value printed by six-significant-digit `%g` formatting
(`absl::StrCat` on a double): the input rounded to six significant decimal
digits, ties to even. -/
def sixDigits (q : ℚ) : ℚ :=
  if q = 0 then 0
  else if q < 0 then
    -((roundEven (-q * (10 : ℚ) ^ ((5 : ℤ) - Int.log 10 (-q))) : ℚ) /
      (10 : ℚ) ^ ((5 : ℤ) - Int.log 10 (-q)))
  else
    (roundEven (q * (10 : ℚ) ^ ((5 : ℤ) - Int.log 10 q)) : ℚ) /
      (10 : ℚ) ^ ((5 : ℤ) - Int.log 10 q)

inductive Tok
  | sc (q : ℚ) (intForm : Bool)
  | pr (mean : ℚ) (count : ℤ)
deriving DecidableEq, Repr

/-- `absl::SimpleAtod` on a token: succeeds exactly on scalar numeric tokens
(a `mean:count` pair is not a valid double literal). -/
def Tok.atod : Tok → Option ℚ
  | .sc q _ => some q
  | .pr _ _ => none

/-- `absl::SimpleAtoi` on a token: succeeds exactly on integer-form scalar
tokens. -/
def Tok.atoi : Tok → Option ℤ
  | .sc q intForm => if intForm ∧ q.den = 1 then some q.num else none
  | .pr _ _ => none

/-- tdigest.cc lines 307-326: `TDigest::ToString`.  Empty digests serialize as
`compression/0/0/0/0`; a single-sample digest as `compression/mean`; otherwise
the digest is merged first and serialized as
`compression/min/max/sum/count/mean0:count0/...`.  The compression token goes
through `absl::StrCat` (six significant digits, line 308); all other doubles
through the exact `%0.17g`. -/
def TDigest.toStringS (F : FitsFam) (s : TDigest) : List Tok × TDigest :=
  if s.count ≤ 1 then
    if s.count = 0 then
      ([.sc (sixDigits s.compression) false, .sc 0 true, .sc 0 true, .sc 0 true,
        .sc 0 true], s)
    else ([.sc (sixDigits s.compression) false, .sc s.centroids.headI.mean false], s)
  else
    let s1 := s.doMerge F
    (([.sc (sixDigits s1.compression) false, .sc s1.min false, .sc s1.max false,
        .sc s1.sum false,
        .sc ((s1.count : ℤ) : ℚ) true] ++ s1.centroids.map fun c => .pr c.mean c.count), s1)

/-- tdigest.cc lines 390-399: the centroid-parsing loop of `FromString`; each
remaining token must be a `mean:count` pair and is fed to `Add`. -/
def parseCentroids (F : FitsFam) (s : TDigest) : List Tok → Option TDigest
  | [] => some s
  | .pr m c :: rest => parseCentroids F (s.add F m c) rest
  | .sc _ _ :: _ => none

/-- tdigest.cc lines 328-417: `TDigest::FromString` on a non-empty input
string already split at '/'.  (Line 332: the empty string is accepted
separately as `Reset(0)`; splitting a non-empty string yields at least one
token.)  The previous digest state is irrelevant: the function resets.
The debug-only check `|sum - sum_| < 1e-10` (line 410) does not affect the
returned status. -/
def TDigest.fromTokens (F : FitsFam) (_s : TDigest) : List Tok → Except String TDigest
  | [] => .error "No compression/discrete."
  | t0 :: rest =>
    match t0.atod with
    | none => .error "Invalid double_val/discrete."
    | some cval =>
      if cval < 0 then .error "Invalid double_val/discrete."
      else
        let s := emptyTD cval
        match rest with
        | [] => .error "Unexpected end of string."
        | [t1] =>
          match t1.atod with
          | none => .error "Invalid single-value."
          | some v => .ok (s.add F v 1)
        | [_, _] => .error "Invalid min, max, sum, or count."
        | [_, _, _] => .error "Invalid min, max, sum, or count."
        | t1 :: t2 :: t3 :: t4 :: restC =>
          match t1.atod, t2.atod, t3.atod, t4.atoi with
          | some mn, some mx, some sm, some cnt =>
            if restC = [] then
              if mn ≠ 0 ∨ mx ≠ 0 ∨ cnt ≠ 0 ∨ sm ≠ 0 then
                .error "Empty t-Digest with non-zero min, max, sum, or count."
              else .ok s
            else
              match parseCentroids F s restC with
              | none => .error "Invalid centroid."
              | some s1 =>
                let s2 := s1.doMerge F
                let s3 : TDigest := { s2 with min := mn, max := mx }
                if s3.centroids = [] then .ok s3
                else if cnt ≠ s3.count then .error "Invalid count value."
                else .ok s3
          | _, _, _, _ => .error "Invalid min, max, sum, or count."

/-! ### The genuine arcsine scale function

tdigest.cc lines 101-108.  These are real-valued (and hence noncomputable in
Lean); everything else in the model is parameterized over the induced
decision family, so all other definitions stay executable. -/

/-- tdigest.cc lines 101-103: `QuantileToCentroid`. -/
noncomputable def QuantileToCentroid (c q : ℝ) : ℝ :=
  c * (Real.arcsin (2 * q - 1) + Real.pi / 2) / Real.pi

/-- tdigest.cc lines 105-108: `CentroidToQuantile` (the argument is clamped to
the compression). -/
noncomputable def CentroidToQuantile (c k : ℝ) : ℝ :=
  (Real.sin (min k c * Real.pi / c - Real.pi / 2) + 1) / 2

/-- The scaled `q_limit` of `DoMerge` for the boundary count `b`
(tdigest.cc lines 131 and 157-158): `total * CentroidToQuantile(q0 + 1)` with
`q0 = QuantileToCentroid(b / total)`; the initial `q0 = 0` coincides with
`QuantileToCentroid 0` since `arcsin (-1) = -pi/2`. -/
noncomputable def qLimit (c : ℚ) (total b : ℤ) : ℝ :=
  (total : ℝ) * CentroidToQuantile (c : ℝ) (QuantileToCentroid (c : ℝ) ((b : ℝ) / (total : ℝ)) + 1)

open Classical in
/-- The genuine merge decision of the source (tdigest.cc line 145). -/
noncomputable def grpcFits : FitsFam := fun c total b m =>
  decide ((m : ℝ) ≤ qLimit c total b)

/-- The potential of the genuine scale function: the centroid index
`k(m / total)` of the cumulative count `m`. -/
noncomputable def phiGrpc (c : ℚ) (total : ℤ) (m : ℤ) : ℝ :=
  QuantileToCentroid (c : ℝ) ((m : ℝ) / (total : ℝ))

/-- The t-digest states reachable through the constructor (with positive
compression), `Add` with non-negative counts and double-representable values,
`Merge`, and the merge forced by the queries (`Cdf`, `Quantile`, `ToString`
merge through `DoMerge` and leave the rest of the state unchanged). -/
inductive TDReachable : TDigest → Prop
  | init (c : ℚ) : 0 < c → TDReachable (emptyTD c)
  | add {s : TDigest} (v : ℚ) (cnt : ℤ) : TDReachable s → 0 ≤ cnt → |v| ≤ dblMax →
      TDReachable (s.add grpcFits v cnt)
  | mergeD {s t : TDigest} : TDReachable s → TDReachable t →
      TDReachable (s.mergeD grpcFits t)
  | domerge {s : TDigest} : TDReachable s → TDReachable (s.doMerge grpcFits)

/-- The state invariant maintained by the reachable digests together with a
list of centroids still pending insertion (the not-yet-added tail of the
other digest during `Merge`; the pending list is empty on quiescence).
`min_`/`max_` always hold finite double values; the sentinels of the empty
digest are DBL_MAX and its negation (tdigest.cc lines 64-65).  `sum_` is
pinned only for empty and single-sample digests: in general it can go stale
between operations (a batch merge during `Merge` recomputes `sum_` from the
current buffer, dropping the pending centroids' contribution until the next
merge), and every consumer of `sum_` goes through `DoMerge`, which re-derives
it from the merged buffer. -/
structure WFx (s : TDigest) (pend : List CentroidPod) : Prop where
  cpos : 0 < s.compression
  cbound : s.compression ≤ kMaxCompression
  batch : s.batchSize = 4 * MaxCentroids s.compression
  lenEq : s.merged + s.unmerged = (s.centroids.length : ℤ)
  mergedNonneg : 0 ≤ s.merged
  unmergedNonneg : 0 ≤ s.unmerged
  countsPos : ∀ x ∈ s.centroids ++ pend, 1 ≤ x.count
  countSum : s.count = sumCounts s.centroids + sumCounts pend
  meansBound : ∀ x ∈ s.centroids ++ pend, |x.mean| ≤ dblMax
  minLe : ∀ x ∈ s.centroids ++ pend, s.min ≤ x.mean
  maxGe : ∀ x ∈ s.centroids ++ pend, x.mean ≤ s.max
  minBound : -dblMax ≤ s.min ∧ s.min ≤ dblMax
  maxBound : -dblMax ≤ s.max ∧ s.max ≤ dblMax
  emptyCase : s.count = 0 →
    s.centroids = [] ∧ pend = [] ∧ s.min = dblMax ∧ s.max = -dblMax ∧ s.sum = 0
  singleCase : ∀ x ∈ s.centroids ++ pend, s.count = 1 →
    s.min = x.mean ∧ s.max = x.mean ∧ s.sum = x.mean
  mergedSorted : s.unmerged = 0 → s.centroids.Sorted meanLE
  mergedBound : s.unmerged = 0 → (s.centroids.length : ℤ) ≤ 2 * ⌈s.compression⌉

/-- The quiescent state invariant. -/
def WF (s : TDigest) : Prop := WFx s []

/-- Merged-state history invariant: when no unmerged centroids remain, the
buffer was produced by the greedy merge (so every adjacent pair carries a
failed merge-decision certificate at its placement boundary), and `sum_` is
the buffer's weighted mean sum (`DoMerge` re-derives it, tdigest.cc lines
166-171). -/
def MergedInv (s : TDigest) : Prop :=
  s.unmerged = 0 →
    certs (grpcFits s.compression s.count) 0 s.centroids.headI.count s.centroids.tail ∧
    s.sum = sumMeanCounts s.centroids

/-- The post-merge state shape that `Cdf` relies on: the `merged_` counter
matches the buffer, and the centroids are sorted by mean. -/
structure MergedWF (s : TDigest) : Prop where
  mergedLen : s.merged = (s.centroids.length : ℤ)
  sorted : s.centroids.Sorted meanLE

/-! ### Connectivity state tracker

connectivity_state.cc.  Watchers are identified by opaque ids; the status
payload is opaque to the tracker, modelled as a string.  Notifications are
returned as an explicit list (the code issues them synchronously via
`watcher->Notify`). -/

/-- The five connectivity states (grpc_connectivity_state). -/
inductive ConnectivityState
  | idle
  | connecting
  | ready
  | transientFailure
  | shutdown
deriving DecidableEq, Repr

/-- A notification delivered to a watcher. -/
structure Notification where
  watcher : ℕ
  state : ConnectivityState
  status : String
deriving DecidableEq, Repr

/-- The tracker state: current state, last status, and the watcher set (in
insertion order; only membership and emptiness matter for the claims). -/
structure ConnectivityStateTracker where
  state : ConnectivityState
  status : String
  watchers : List ℕ
deriving DecidableEq, Repr

/-- connectivity_state.cc lines 144-168: `SetState`.  No-op when the state is
unchanged; otherwise store state and status, notify every watcher, and clear
the watcher set upon entering SHUTDOWN. -/
def ConnectivityStateTracker.setState (t : ConnectivityStateTracker)
    (s : ConnectivityState) (st : String) (_reason : String) :
    ConnectivityStateTracker × List Notification :=
  if s = t.state then (t, [])
  else
    ({ state := s, status := st
       watchers := if s = .shutdown then [] else t.watchers },
     t.watchers.map fun w => ⟨w, s, st⟩)

/-- connectivity_state.cc lines 113-134: `AddWatcher`.  Notifies the watcher
immediately iff the supplied initial state differs from the current state;
does not add the watcher when the current state is SHUTDOWN. -/
def ConnectivityStateTracker.addWatcher (t : ConnectivityStateTracker)
    (initialState : ConnectivityState) (w : ℕ) :
    ConnectivityStateTracker × List Notification :=
  let notifs := if initialState ≠ t.state then [⟨w, t.state, t.status⟩] else []
  (if t.state ≠ .shutdown then { t with watchers := t.watchers ++ [w] } else t, notifs)

/-- connectivity_state.cc lines 136-142: `RemoveWatcher`. -/
def ConnectivityStateTracker.removeWatcher (t : ConnectivityStateTracker) (w : ℕ) :
    ConnectivityStateTracker :=
  { t with watchers := t.watchers.erase w }

/-- Modelled from the spec: the constructor of `ConnectivityStateTracker`
lives in connectivity_state.h (not under src/); per spec section 4.2 the
initial state is supplied at construction (IDLE by default) and the watcher
set starts empty. -/
def initTracker (initial : ConnectivityState) : ConnectivityStateTracker :=
  { state := initial, status := "", watchers := [] }

/-- Tracker states reachable through the public operations. -/
inductive TrackerReachable : ConnectivityStateTracker → Prop
  | init (initial : ConnectivityState) : TrackerReachable (initTracker initial)
  | set {t} (s : ConnectivityState) (st r : String) :
      TrackerReachable t → TrackerReachable (t.setState s st r).1
  | addW {t} (h : ConnectivityState) (w : ℕ) :
      TrackerReachable t → TrackerReachable (t.addWatcher h w).1
  | remW {t} (w : ℕ) : TrackerReachable t → TrackerReachable (t.removeWatcher w)

/-- A `SetState` call: target state, status, reason. -/
structure SetStateCall where
  s : ConnectivityState
  st : String
  r : String

/-- Run a sequence of `SetState` calls, collecting every notification issued. -/
def runSetStates (t : ConnectivityStateTracker) :
    List SetStateCall → ConnectivityStateTracker × List Notification
  | [] => (t, [])
  | c :: rest =>
    let step := t.setState c.s c.st c.r
    let next := runSetStates step.1 rest
    (next.1, step.2 ++ next.2)

/-! ### Config loader (load_config.cc) -/

/-- The process environment, as a map from variable names to values. -/
abbrev EnvMap := String → Option String

/-- env.h `GetEnv`, made explicit in the environment. -/
def GetEnv (env : EnvMap) (name : String) : Option String := env name

/-- load_config.cc lines 30-32: `LoadEnv`. -/
def LoadEnv (env : EnvMap) (environment_variable : String) : Option String :=
  GetEnv env environment_variable

/-- load_config.cc lines 53-56: the bool overload of `LoadConfigFromEnv`
returns the default value without consulting the environment. -/
def LoadConfigFromEnvBool (_env : EnvMap) (_environment_variable : String)
    (default_value : Bool) : Bool :=
  default_value

/-! ### Anchor invariant for the Quantile loop -/

/-- Twice the count mass that the `this_count` anchor still has to absorb:
with the scan at the head of `l`, `this_count` equals
`total - l.headI.count / 2 - sumCounts l.tail` (and `total` once `l` is
empty), i.e. `2 * this_count = 2 * total - restWeight l`. -/
def restWeight : List CentroidPod → ℤ
  | [] => 0
  | c :: rest => c.count + 2 * sumCounts rest

/-- Loop invariant of `TDigest::Quantile` (tdigest.cc lines 280-301) relating
the `(prev_count, prev_val)` / `(this_count, this_val)` anchors to the
remaining centroid list `l`: anchors advance strictly in count and weakly in
value, the count anchor tracks the remaining mass, and the remaining centroids
are sorted with means between `this_val` and `max_`. -/
structure QInv (total : ℤ) (mx : ℚ) (prev cur : ℚ × ℚ) (l : List CentroidPod) : Prop where
  pt : prev.1 < cur.1
  pv : prev.2 ≤ cur.2
  cnt : 2 * cur.1 = 2 * (total : ℚ) - ((restWeight l : ℤ) : ℚ)
  counts : ∀ x ∈ l, 1 ≤ x.count
  sorted : l.Sorted meanLE
  meansLe : ∀ x ∈ l, cur.2 ≤ x.mean
  meansMx : ∀ x ∈ l, x.mean ≤ mx
  curMx : cur.2 ≤ mx

/-! ### Tracker lemmas -/

/-- Unfolding lemma for the state component of `setState`. -/
theorem setState_fst (t : ConnectivityStateTracker) (s : ConnectivityState) (st r : String) :
    (t.setState s st r).1 = if s = t.state then t else
      { state := s, status := st
        watchers := if s = ConnectivityState.shutdown then [] else t.watchers } := by
  unfold ConnectivityStateTracker.setState
  split <;> rfl

/-- Unfolding lemma for the notifications component of `setState`. -/
theorem setState_snd (t : ConnectivityStateTracker) (s : ConnectivityState) (st r : String) :
    (t.setState s st r).2 = if s = t.state then [] else
      t.watchers.map fun w => ⟨w, s, st⟩ := by
  unfold ConnectivityStateTracker.setState
  split <;> rfl

/-- Unfolding lemma for the state component of `addWatcher`. -/
theorem addWatcher_fst (t : ConnectivityStateTracker) (h : ConnectivityState) (w : ℕ) :
    (t.addWatcher h w).1 = if t.state = ConnectivityState.shutdown then t
      else { t with watchers := t.watchers ++ [w] } := by
  unfold ConnectivityStateTracker.addWatcher
  by_cases hx : t.state = ConnectivityState.shutdown <;> simp [hx]

/-- Unfolding lemma for the notifications component of `addWatcher`. -/
theorem addWatcher_snd (t : ConnectivityStateTracker) (h : ConnectivityState) (w : ℕ) :
    (t.addWatcher h w).2 = if h = t.state then [] else [⟨w, t.state, t.status⟩] := by
  unfold ConnectivityStateTracker.addWatcher
  by_cases hx : h = t.state <;> simp [hx]

/-- In every reachable tracker that is in SHUTDOWN, the watcher set is empty:
entering SHUTDOWN clears it (connectivity_state.cc line 167) and
`AddWatcher` refuses to add under SHUTDOWN (line 131). -/
theorem trackerShutdownWatchersNil :
    ∀ {t : ConnectivityStateTracker}, TrackerReachable t →
      t.state = .shutdown → t.watchers = [] := by
  intro t ht
  induction ht with
  | init initial => intro _; rfl
  | @set t s st r _ ih =>
    intro hs
    rw [setState_fst] at hs ⊢
    by_cases h : s = t.state
    · rw [if_pos h] at hs ⊢
      exact ih hs
    · rw [if_neg h] at hs ⊢
      have hs2 : s = ConnectivityState.shutdown := hs
      show (if s = ConnectivityState.shutdown then [] else t.watchers) = []
      rw [if_pos hs2]
  | @addW t h w _ ih =>
    intro hs
    rw [addWatcher_fst] at hs ⊢
    by_cases hx : t.state = ConnectivityState.shutdown
    · rw [if_pos hx] at hs ⊢
      exact ih hs
    · rw [if_neg hx] at hs
      exact absurd hs hx
  | @remW t w _ ih =>
    intro hs
    have hs2 : t.state = ConnectivityState.shutdown := hs
    show t.watchers.erase w = []
    rw [ih hs2]
    rfl

/-- A tracker with no watchers issues no notifications under any sequence of
`SetState` calls, and its watcher set stays empty. -/
theorem runSetStatesNilWatchers :
    ∀ (calls : List SetStateCall) (t : ConnectivityStateTracker),
      t.watchers = [] →
      (runSetStates t calls).2 = [] ∧ (runSetStates t calls).1.watchers = [] := by
  intro calls
  induction calls with
  | nil => intro t h; exact ⟨rfl, h⟩
  | cons c rest ih =>
    intro t h
    have h1 : (t.setState c.s c.st c.r).1.watchers = [] := by
      rw [setState_fst]
      by_cases hx : c.s = t.state
      · rw [if_pos hx]; exact h
      · rw [if_neg hx]
        show (if c.s = ConnectivityState.shutdown then [] else t.watchers) = []
        by_cases hy : c.s = ConnectivityState.shutdown
        · rw [if_pos hy]
        · rw [if_neg hy]; exact h
    have h2 : (t.setState c.s c.st c.r).2 = [] := by
      rw [setState_snd]
      by_cases hx : c.s = t.state
      · rw [if_pos hx]
      · rw [if_neg hx, h]; rfl
    have hrest := ih (t.setState c.s c.st c.r).1 h1
    constructor
    · show (t.setState c.s c.st c.r).2 ++ (runSetStates _ rest).2 = []
      rw [h2, hrest.1]
      rfl
    · exact hrest.2

/-- C5 counterexample: a reachable tracker in SHUTDOWN from which a single
`SetState(IDLE, ...)` call moves the state away from SHUTDOWN, so `state()`
does not return SHUTDOWN ever after. -/
theorem C5_counterexample :
    TrackerReachable (initTracker .shutdown) ∧
    (initTracker .shutdown).state = .shutdown ∧
    ((initTracker .shutdown).setState .idle "" "transition out").1.state ≠
      ConnectivityState.shutdown :=
  ⟨TrackerReachable.init .shutdown, rfl, by decide⟩

/-- C5 (amended): for every reachable tracker in SHUTDOWN, the watcher set is
empty and no subsequent sequence of `SetState` calls (with any state, status,
reason) issues any watcher notification; the stored state itself, however,
can be changed by such calls (the tracker does not enforce terminality). -/
theorem C5_shutdown_silent (t : ConnectivityStateTracker)
    (hr : TrackerReachable t) (hs : t.state = .shutdown) :
    t.watchers = [] ∧ ∀ calls : List SetStateCall, (runSetStates t calls).2 = [] := by
  have hnil := trackerShutdownWatchersNil hr hs
  exact ⟨hnil, fun calls => (runSetStatesNilWatchers calls t hnil).1⟩

/-- Witness for C5: the amended theorem applied to a concrete shutdown
tracker and a concrete call sequence. -/
theorem C5_shutdown_silent_witness :
    (initTracker .shutdown).watchers = [] ∧
    (runSetStates (initTracker .shutdown)
      [⟨.idle, "", "a"⟩, ⟨.ready, "", "b"⟩, ⟨.shutdown, "", "c"⟩]).2 = [] := by
  have h := C5_shutdown_silent (initTracker .shutdown)
    (TrackerReachable.init .shutdown) rfl
  exact ⟨h.1, h.2 _⟩

/-- C6 counterexample: with the current state SHUTDOWN and the hint also
SHUTDOWN, `AddWatcher` issues no notification at all (the code notifies only
when the hint differs from the current state), contradicting "notifies that
watcher exactly once" for every hint. -/
theorem C6_counterexample :
    TrackerReachable (initTracker .shutdown) ∧
    ((initTracker .shutdown).addWatcher .shutdown 7).2 = [] ∧
    ((initTracker .shutdown).addWatcher .shutdown 7).2.length ≠ 1 :=
  ⟨TrackerReachable.init .shutdown, by decide, by decide⟩

/-- C6 (amended): under SHUTDOWN, `AddWatcher` leaves the tracker (including
its watcher set) unchanged, and notifies the watcher exactly once with
(SHUTDOWN, status) iff the supplied initial-state hint differs from
SHUTDOWN; with hint SHUTDOWN it is not notified. -/
theorem C6_addWatcher_shutdown (t : ConnectivityStateTracker)
    (hint : ConnectivityState) (w : ℕ) (hs : t.state = .shutdown) :
    (t.addWatcher hint w).1 = t ∧
    (t.addWatcher hint w).2 =
      if hint ≠ .shutdown then [⟨w, .shutdown, t.status⟩] else [] := by
  constructor
  · rw [addWatcher_fst, if_pos hs]
  · rw [addWatcher_snd, hs]
    by_cases hx : hint = ConnectivityState.shutdown <;> simp [hx]

/-- Witness for C6: the amended theorem applied to a concrete tracker. -/
theorem C6_addWatcher_shutdown_witness :
    ((initTracker .shutdown).addWatcher .connecting 5).1 = initTracker .shutdown ∧
    ((initTracker .shutdown).addWatcher .connecting 5).2 =
      if ConnectivityState.connecting ≠ .shutdown then
        [⟨5, .shutdown, (initTracker .shutdown).status⟩] else [] :=
  C6_addWatcher_shutdown (initTracker .shutdown) .connecting 5 rfl

/-- C9: the bool overload of `LoadConfigFromEnv` is a stub: it returns the
default value for every environment-variable name, independent of the
environment's contents (two runs with different environments agree). -/
theorem C9_bool_loader_stub (env1 env2 : EnvMap) (name : String) (d : Bool) :
    LoadConfigFromEnvBool env1 name d = d ∧
    LoadConfigFromEnvBool env2 name d = LoadConfigFromEnvBool env1 name d :=
  ⟨rfl, rfl⟩

/-! ### C7: declared-empty header validation -/

/-- C7 counterexample: the declared-empty header `2000000/0/0/0/0` (all four
of min, max, sum, count zero) parses OK, but the resulting digest's
compression is `min(2000000, 10^6) = 10^6`, not the token value 2000000 as
the claim states. -/
theorem C7_counterexample :
    (emptyTD 0).fromTokens grpcFits
        [.sc 2000000 false, .sc 0 true, .sc 0 true, .sc 0 true, .sc 0 true] =
      .ok (emptyTD 2000000) ∧
    (emptyTD 2000000).compression = 1000000 ∧ ((1000000 : ℚ) ≠ 2000000) := by
  refine ⟨?_, ?_, by norm_num⟩
  · simp only [TDigest.fromTokens, Tok.atod, Tok.atoi]
    norm_num
  · show BoundedCompression 2000000 = 1000000
    unfold BoundedCompression kMaxCompression
    rw [min_eq_left (by norm_num)]

/-- C7 (amended): for five numeric tokens `c/min/max/sum/count` with c ≥ 0,
parsing returns OK iff min, max, sum and count are all zero and the count
token is an integer literal (otherwise an error is returned: either the
non-integer count fails `SimpleAtoi`, or the non-zero declared-empty check
fires); on success the digest is empty with compression `min(c, 10^6)`. -/
theorem C7_declared_empty (c mn mx sm q4 : ℚ) (iF0 iF1 iF2 iF3 iF4 : Bool)
    (hc : 0 ≤ c) :
    ((mn = 0 ∧ mx = 0 ∧ sm = 0 ∧ q4 = 0 ∧ iF4 = true) →
       (emptyTD 0).fromTokens grpcFits
          [.sc c iF0, .sc mn iF1, .sc mx iF2, .sc sm iF3, .sc q4 iF4] =
         .ok (emptyTD c) ∧ (emptyTD c).count = 0 ∧
         (emptyTD c).compression = BoundedCompression c) ∧
    (¬(mn = 0 ∧ mx = 0 ∧ sm = 0 ∧ q4 = 0 ∧ iF4 = true) →
       ∃ e, (emptyTD 0).fromTokens grpcFits
          [.sc c iF0, .sc mn iF1, .sc mx iF2, .sc sm iF3, .sc q4 iF4] =
         .error e) := by
  have hnl : ¬ c < 0 := not_lt.mpr hc
  constructor
  · rintro ⟨h1, h2, h3, h4, h5⟩
    subst h1; subst h2; subst h3; subst h4; subst h5
    refine ⟨?_, rfl, rfl⟩
    simp only [TDigest.fromTokens, Tok.atod, Tok.atoi]
    rw [if_neg hnl]
    norm_num
  · intro hno
    simp only [TDigest.fromTokens, Tok.atod, Tok.atoi]
    rw [if_neg hnl]
    by_cases h5 : iF4 = true ∧ q4.den = 1
    · rw [if_pos (by exact_mod_cast h5)]
      have hnum : mn ≠ 0 ∨ mx ≠ 0 ∨ q4.num ≠ 0 ∨ sm ≠ 0 := by
        by_contra hall
        push_neg at hall
        exact hno ⟨hall.1, hall.2.1, hall.2.2.2, Rat.num_eq_zero.mp hall.2.2.1, h5.1⟩
      simp only [if_pos rfl]
      rw [if_pos hnum]
      exact ⟨_, rfl⟩
    · rw [if_neg (by exact_mod_cast h5)]
      exact ⟨_, rfl⟩

/-- Witness for C7 (amended), at concrete inputs exercising both the OK and
the error direction. -/
theorem C7_declared_empty_witness :
    (0 : ℚ) ≤ 100 ∧
    ((emptyTD 0).fromTokens grpcFits
        [.sc 100 false, .sc 0 true, .sc 0 true, .sc 0 true, .sc 0 true] =
      .ok (emptyTD 100) ∧ (emptyTD 100).count = 0 ∧
      (emptyTD 100).compression = BoundedCompression 100) ∧
    (∃ e, (emptyTD 0).fromTokens grpcFits
        [.sc 100 false, .sc 1 true, .sc 0 true, .sc 0 true, .sc 0 true] =
      .error e) := by
  have h := C7_declared_empty 100 0 0 0 0 false true true true true (by norm_num)
  have h2 := C7_declared_empty 100 1 0 0 0 false true true true true (by norm_num)
  exact ⟨by norm_num, h.1 ⟨rfl, rfl, rfl, rfl, rfl⟩, h2.2 (by norm_num)⟩

/-! ### Facts about the genuine scale function -/

/-- The scale function maps quantile 0 to centroid index 0. -/
theorem qToK_zero (c : ℝ) : QuantileToCentroid c 0 = 0 := by
  unfold QuantileToCentroid
  norm_num [Real.arcsin_neg_one]

/-- The scaled limit at boundary count 0. -/
theorem qLimit_zero (c : ℚ) (total : ℤ) :
    qLimit c total 0 = (total : ℝ) * CentroidToQuantile (c : ℝ) 1 := by
  unfold qLimit
  norm_num [qToK_zero]

/-- At compression 1, one centroid index covers the whole distribution. -/
theorem ctq_one_one : CentroidToQuantile (1 : ℝ) 1 = 1 := by
  unfold CentroidToQuantile
  rw [min_self]
  have h : (1 : ℝ) * Real.pi / 1 - Real.pi / 2 = Real.pi / 2 := by ring
  rw [h, Real.sin_pi_div_two]
  norm_num

/-- At compression 3/2, one centroid index covers three quarters of the
distribution. -/
theorem ctq_32_one : CentroidToQuantile ((3 : ℝ) / 2) 1 = 3 / 4 := by
  unfold CentroidToQuantile
  rw [min_eq_left (by norm_num)]
  have h : (1 : ℝ) * Real.pi / (3 / 2) - Real.pi / 2 = Real.pi / 6 := by ring
  rw [h, Real.sin_pi_div_six]
  norm_num

/-- Unfolding of the genuine merge decision, positive direction. -/
theorem grpcFits_true_iff (c : ℚ) (total b m : ℤ) :
    grpcFits c total b m = true ↔ (m : ℝ) ≤ qLimit c total b := by
  unfold grpcFits
  exact decide_eq_true_iff

/-- Unfolding of the genuine merge decision, negative direction. -/
theorem grpcFits_false_iff (c : ℚ) (total b m : ℤ) :
    grpcFits c total b m = false ↔ ¬ (m : ℝ) ≤ qLimit c total b := by
  unfold grpcFits
  exact decide_eq_false_iff_not

/-- Concrete decision: at compression 1 with 2 samples, the first merge
absorbs everything (q_limit is exactly 2). -/
theorem fits_1_2_0_2 : grpcFits 1 2 0 2 = true := by
  rw [grpcFits_true_iff, qLimit_zero]
  push_cast
  rw [ctq_one_one]
  norm_num

/-- Concrete decision: at compression 3/2 with 3 samples, cumulative count 2
fits the first centroid (q_limit is 9/4). -/
theorem fits_32_3_0_2 : grpcFits (3/2) 3 0 2 = true := by
  rw [grpcFits_true_iff, qLimit_zero]
  push_cast
  rw [ctq_32_one]
  norm_num

/-- Concrete decision: at compression 3/2 with 3 samples, cumulative count 3
does not fit the first centroid. -/
theorem fits_32_3_0_3 : grpcFits (3/2) 3 0 3 = false := by
  rw [grpcFits_false_iff, qLimit_zero]
  push_cast
  rw [ctq_32_one]
  norm_num

/-! ### The merge loop: fold–recursion correspondence -/

/-- The two branches of `mergeStep`, spelled out. -/
theorem mergeStep_pos (fits : FitsFun) (acc : MergeAcc) (c : CentroidPod)
    (h : fits acc.b (c.count + acc.mergedCount) = true) :
    mergeStep fits acc c =
      { acc with lastMerged := welford acc.lastMerged c
                 mergedCount := acc.mergedCount + c.count } := by
  unfold mergeStep
  rw [h]
  rfl

/-- The finalize branch of `mergeStep`. -/
theorem mergeStep_neg (fits : FitsFun) (acc : MergeAcc) (c : CentroidPod)
    (h : fits acc.b (c.count + acc.mergedCount) = false) :
    mergeStep fits acc c =
      { placedRev := acc.lastMerged :: acc.placedRev
        lastMerged := c
        b := acc.mergedCount
        mergedCount := acc.mergedCount + c.count
        sum := acc.sum + acc.lastMerged.mean * (acc.lastMerged.count : ℚ) } := by
  unfold mergeStep
  rw [h]
  rfl

/-- The merged output of the fold is the already placed prefix followed by
the direct recursion from the current loop state. -/
theorem foldl_mergeStep_out (fits : FitsFun) :
    ∀ (l : List CentroidPod) (acc : MergeAcc),
      (l.foldl (mergeStep fits) acc).placedRev.reverse ++
        [(l.foldl (mergeStep fits) acc).lastMerged] =
      acc.placedRev.reverse ++ mergeRecOut fits acc.b acc.mergedCount acc.lastMerged l := by
  intro l
  induction l with
  | nil => intro acc; rfl
  | cons c rest ih =>
    intro acc
    rw [List.foldl_cons, mergeRecOut]
    cases hF : fits acc.b (c.count + acc.mergedCount) with
    | true =>
      rw [if_pos rfl, mergeStep_pos fits acc c hF, ih]
    | false =>
      rw [if_neg Bool.false_ne_true, mergeStep_neg fits acc c hF, ih]
      simp

/-- The running sum plus the pending centroid's contribution equals the sum
over the remaining merged output. -/
theorem foldl_mergeStep_sum (fits : FitsFun) :
    ∀ (l : List CentroidPod) (acc : MergeAcc),
      (l.foldl (mergeStep fits) acc).sum +
        (l.foldl (mergeStep fits) acc).lastMerged.mean *
          ((l.foldl (mergeStep fits) acc).lastMerged.count : ℚ) =
      acc.sum + sumMeanCounts (mergeRecOut fits acc.b acc.mergedCount acc.lastMerged l) := by
  intro l
  induction l with
  | nil => intro acc; simp [sumMeanCounts, mergeRecOut]
  | cons c rest ih =>
    intro acc
    rw [List.foldl_cons, mergeRecOut]
    cases hF : fits acc.b (c.count + acc.mergedCount) with
    | true =>
      rw [if_pos rfl, mergeStep_pos fits acc c hF, ih]
    | false =>
      rw [if_neg Bool.false_ne_true, mergeStep_neg fits acc c hF, ih]
      simp only [sumMeanCounts, List.map_cons, List.sum_cons]
      ring

/-- The last element of a list ending in `x` is `x` (inhabited version). -/
theorem getLastI_concat (xs : List CentroidPod) (x : CentroidPod) :
    (xs ++ [x]).getLastI = x := by
  rw [List.getLastI_eq_getLast?, List.getLast?_concat]

/-- The merged output is never empty. -/
theorem mergeRecOut_ne_nil (fits : FitsFun) :
    ∀ (l : List CentroidPod) (b mc : ℤ) (last : CentroidPod),
      mergeRecOut fits b mc last l ≠ [] := by
  intro l
  induction l with
  | nil => intro b mc last; simp [mergeRecOut]
  | cons c rest ih =>
    intro b mc last
    rw [mergeRecOut]
    cases hF : fits b (c.count + mc) with
    | true => rw [if_pos rfl]; exact ih _ _ _
    | false => rw [if_neg Bool.false_ne_true]; exact List.cons_ne_nil _ _

/-- Characterization of `DoMerge` on a state with pending unmerged centroids:
the result is given by the direct recursion started at boundary 0 from the
first sorted centroid, and the derived statistics. -/
theorem doMerge_eq (F : FitsFam) (s : TDigest) (c0 : CentroidPod) (rest : List CentroidPod)
    (h0 : ¬ s.unmerged = 0) (hsort : sortCentroids s.centroids = c0 :: rest) :
    s.doMerge F =
      { s with
        centroids := mergeRecOut (F s.compression s.count) 0 c0.count c0 rest
        merged := ((mergeRecOut (F s.compression s.count) 0 c0.count c0 rest).length : ℤ)
        unmerged := 0
        sum := sumMeanCounts (mergeRecOut (F s.compression s.count) 0 c0.count c0 rest)
        min := Min.min s.min (mergeRecOut (F s.compression s.count) 0 c0.count c0 rest).headI.mean
        max := Max.max s.max
          ((mergeRecOut (F s.compression s.count) 0 c0.count c0 rest).getLastI).mean } := by
  have hout := foldl_mergeStep_out (F s.compression s.count) rest ⟨[], c0, 0, c0.count, 0⟩
  have hsum := foldl_mergeStep_sum (F s.compression s.count) rest ⟨[], c0, 0, c0.count, 0⟩
  simp only [List.reverse_nil, List.nil_append] at hout
  dsimp only at hsum
  rw [zero_add] at hsum
  have hlast : (mergeRecOut (F s.compression s.count) 0 c0.count c0 rest).getLastI =
      (rest.foldl (mergeStep (F s.compression s.count)) ⟨[], c0, 0, c0.count, 0⟩).lastMerged := by
    rw [← hout]
    exact getLastI_concat _ _
  rw [TDigest.doMerge, if_neg h0, hsort]
  dsimp only
  rw [hout, hsum, ← hlast]

/-! ### C3: single-centroid Cdf -/

/-- Evaluation of `Add` when the count is non-zero and the batch does not
fill. -/
theorem add_eval (F : FitsFam) (s : TDigest) (v : ℚ) (cnt : ℤ) (hc : ¬ cnt = 0)
    (hb : ¬ s.unmerged + 1 = s.batchSize) :
    s.add F v cnt =
      { s with min := Min.min s.min v, max := Max.max s.max v,
               sum := s.sum + v * (cnt : ℚ), count := s.count + cnt,
               centroids := s.centroids ++ [⟨v, cnt⟩], unmerged := s.unmerged + 1 } := by
  unfold TDigest.add TDigest.updateStats TDigest.addUnmergedCentroid
  rw [if_neg hc]
  dsimp only
  rw [if_neg hb]

/-- The fresh digest of compression 1. -/
theorem emptyTD_one : emptyTD 1 = ⟨1, 8, [], 0, 0, dblMax, -dblMax, 0, 0⟩ := by
  unfold emptyTD MaxCentroids BoundedCompression kMaxCompression
  norm_num

/-- Evaluation of the two-sample digest of compression 1 before its first
merge. -/
theorem twoSample_pre :
    ((emptyTD 1).add grpcFits 0 1).add grpcFits 2 1 =
      { compression := 1, batchSize := 8, centroids := [⟨0, 1⟩, ⟨2, 1⟩], merged := 0,
        unmerged := 2, min := 0, max := 2, sum := 2, count := 2 } := by
  rw [emptyTD_one, add_eval grpcFits _ 0 1 (by norm_num) (by norm_num),
    add_eval grpcFits _ 2 1 (by norm_num) (by norm_num)]
  norm_num [dblMax]

/-- Merging the two-sample digest of compression 1: q_limit is exactly 2, so
both samples collapse into the single centroid (1, 2). -/
theorem twoSample_merge :
    ({ compression := 1, batchSize := 8, centroids := [⟨0, 1⟩, ⟨2, 1⟩], merged := 0,
       unmerged := 2, min := 0, max := 2, sum := 2, count := 2 } : TDigest).doMerge grpcFits =
      { compression := 1, batchSize := 8, centroids := [⟨1, 2⟩], merged := 1,
        unmerged := 0, min := 0, max := 2, sum := 2, count := 2 } := by
  have h1 : mergeRecOut (grpcFits 1 2) 0 1 ⟨0, 1⟩ [⟨2, 1⟩] = [⟨1, 2⟩] := by
    rw [mergeRecOut]
    dsimp only
    rw [show (1 : ℤ) + 1 = 2 from by norm_num, fits_1_2_0_2, if_pos rfl, mergeRecOut]
    norm_num [welford]
  rw [doMerge_eq grpcFits _ ⟨0, 1⟩ [⟨2, 1⟩] (by decide) (by decide)]
  dsimp only
  rw [h1]
  norm_num [sumMeanCounts, List.getLastI]

/-- C3: the failing input for the single-centroid branch of `Cdf`.  The
digest `TDigest(1); Add(0,1); Add(2,1)` merges into a single centroid with
min 0 < max 2; `Cdf(1)` evaluates the branch at tdigest.cc line 219 to
`(1 - 0) / (0 - 2) = -1/2`, whereas the claim requires the linear
interpolation `(1 - 0) / (2 - 0) = 1/2`; the returned value is even
negative, outside the range of a CDF. -/
theorem C3_single_centroid_cdf_eval :
    (((emptyTD 1).add grpcFits 0 1 |>.add grpcFits 2 1).cdfS grpcFits 1).1 =
      CdfResult.val (-(1 / 2)) ∧
    ((((emptyTD 1).add grpcFits 0 1 |>.add grpcFits 2 1).cdfS grpcFits 1).2).merged = 1 ∧
    (-(1 / 2) : ℚ) ≠ (1 - 0) / (2 - 0) := by
  refine ⟨?_, ?_, by norm_num⟩
  · show ((((emptyTD 1).add grpcFits 0 1).add grpcFits 2 1).doMerge grpcFits).cdfMerged 1 =
      CdfResult.val (-(1 / 2))
    rw [twoSample_pre, twoSample_merge]
    norm_num [TDigest.cdfMerged]
  · show ((((emptyTD 1).add grpcFits 0 1).add grpcFits 2 1).doMerge grpcFits).merged = 1
    rw [twoSample_pre, twoSample_merge]

/-! ### C10: index safety of the Cdf scan -/

/-- The equal-mean collapse loop stops before the last element: as long as
some later centroid has a mean strictly above `v`, the look-ahead read stays
in bounds. -/
theorem cdfCollapse_ne_oob (total : ℤ) (v : ℚ) :
    ∀ (l : List CentroidPod) (cur : CentroidPod) (pAcc acc : ℚ),
      (∃ y ∈ l, v < y.mean) →
      cdfCollapse total pAcc acc v cur l ≠ CdfResult.oob := by
  intro l
  induction l with
  | nil =>
    rintro cur pAcc acc ⟨y, hy, _⟩
    cases hy
  | cons nxt rest ih =>
    intro cur pAcc acc hex
    rw [cdfCollapse]
    by_cases h : nxt.mean = v
    · rw [if_pos h]
      apply ih
      rcases hex with ⟨y, hy, hvy⟩
      rcases List.mem_cons.mp hy with rfl | hy2
      · exact absurd hvy (by rw [h]; exact lt_irrefl v)
      · exact ⟨y, hy2, hvy⟩
    · rw [if_neg h]
      simp

/-- The main scan of `Cdf` returns before running off the end of the buffer:
with sorted centroids, `cur.mean ≤ v`, and some later centroid mean strictly
above `v`, the scan always hits a returning branch. -/
theorem cdfGo_ne_oob (total : ℤ) (v : ℚ) :
    ∀ (l : List CentroidPod) (cur : CentroidPod) (acc : ℚ),
      (cur :: l).Sorted meanLE → cur.mean ≤ v → (∃ y ∈ l, v < y.mean) →
      cdfGo total v acc cur l ≠ CdfResult.oob := by
  intro l
  induction l with
  | nil =>
    rintro cur acc _ _ ⟨y, hy, _⟩
    cases hy
  | cons nxt rest ih =>
    intro cur acc hsort hle hex
    rw [cdfGo]
    by_cases hcv : cur.mean = v
    · rw [if_pos hcv]
      apply cdfCollapse_ne_oob
      rcases hex with ⟨y, hy, hvy⟩
      exact ⟨y, hy, hvy⟩
    · rw [if_neg hcv]
      by_cases hbr : cur.mean ≤ v ∧ v < nxt.mean
      · rw [if_pos hbr]
        simp
      · rw [if_neg hbr]
        have hnle : nxt.mean ≤ v := by
          rcases not_and_or.mp hbr with h | h
          · exact absurd hle h
          · exact not_lt.mp h
        apply ih nxt _ hsort.of_cons hnle
        rcases hex with ⟨y, hy, hvy⟩
        rcases List.mem_cons.mp hy with rfl | hy2
        · exact absurd hvy (not_lt.mpr hnle)
        · exact ⟨y, hy2, hvy⟩

/-- C10: for every merged TDigest whose centroids are sorted by mean with at
least two centroids, and every input v, `Cdf` performs no out-of-bounds
centroid access: the early branches guarantee that the scan starts with
`centroids[0].mean <= v < centroids.back().mean`, and then both the
equal-mean collapse loop and the main scan return before reading past the
end of the buffer. -/
theorem C10_cdf_index_safety (s : TDigest) (h : MergedWF s)
    (hlen : 2 ≤ s.centroids.length) (v : ℚ) :
    s.cdfMerged v ≠ CdfResult.oob := by
  obtain ⟨c0, rest, hc⟩ : ∃ c0 rest, s.centroids = c0 :: rest := by
    cases hcl : s.centroids with
    | nil => rw [hcl] at hlen; simp at hlen
    | cons a b => exact ⟨a, b, rfl⟩
  have hlen2 : 2 ≤ (s.centroids.length : ℤ) := by exact_mod_cast hlen
  rw [TDigest.cdfMerged]
  rw [if_neg (by rw [h.mergedLen]; omega)]
  by_cases h1 : v < s.min
  · rw [if_pos h1]; simp
  rw [if_neg h1]
  by_cases h2 : s.max ≤ v
  · rw [if_pos h2]; simp
  rw [if_neg h2]
  rw [if_neg (by rw [h.mergedLen]; omega), hc]
  dsimp only
  by_cases h3 : v < c0.mean
  · rw [if_pos h3]; simp
  rw [if_neg h3]
  by_cases h4 : ((c0 :: rest).getLast (List.cons_ne_nil c0 rest)).mean ≤ v
  · rw [if_pos h4]; simp
  rw [if_neg h4]
  apply cdfGo_ne_oob
  · rw [← hc]; exact h.sorted
  · exact not_lt.mp h3
  · cases rest with
    | nil =>
      rw [hc] at hlen
      simp at hlen
    | cons b bs =>
      refine ⟨(b :: bs).getLast (List.cons_ne_nil b bs), List.getLast_mem _, ?_⟩
      have hLast : (c0 :: b :: bs).getLast (List.cons_ne_nil c0 (b :: bs)) =
          (b :: bs).getLast (List.cons_ne_nil b bs) :=
        List.getLast_cons (List.cons_ne_nil b bs)
      rw [← hLast]
      exact not_le.mp h4

/-- Witness for C10: a concrete sorted two-centroid merged state, probed at
v = 1 (which lies strictly between the two means). -/
theorem C10_cdf_index_safety_witness :
    2 ≤ ([⟨0, 1⟩, ⟨2, 1⟩] : List CentroidPod).length ∧
    (⟨1, 8, [⟨0, 1⟩, ⟨2, 1⟩], 2, 0, 0, 2, 2, 2⟩ : TDigest).cdfMerged 1 ≠ CdfResult.oob := by
  refine ⟨by norm_num, ?_⟩
  apply C10_cdf_index_safety
  · exact ⟨rfl, by simp [List.sorted_cons, meanLE]⟩
  · norm_num

/-! ### Structural properties of the merge -/

/-- Welford's update is exact for the mean-times-count sum in ℚ. -/
theorem welford_sum (last c : CentroidPod) (h : ((last.count + c.count : ℤ) : ℚ) ≠ 0) :
    (welford last c).mean * ((welford last c).count : ℚ) =
      last.mean * (last.count : ℚ) + c.mean * (c.count : ℚ) := by
  have h2 : (last.count : ℚ) + (c.count : ℚ) ≠ 0 := by
    intro hx
    apply h
    push_cast
    linarith
  unfold welford
  dsimp only
  push_cast
  field_simp
  ring

/-- The merge preserves the total count. -/
theorem sumCounts_mergeRecOut (fits : FitsFun) :
    ∀ (l : List CentroidPod) (b mc : ℤ) (last : CentroidPod),
      sumCounts (mergeRecOut fits b mc last l) = last.count + sumCounts l := by
  intro l
  induction l with
  | nil => intro b mc last; simp [mergeRecOut, sumCounts]
  | cons ct rest ih =>
    intro b mc last
    rw [mergeRecOut]
    cases hF : fits b (ct.count + mc) with
    | true =>
      rw [if_pos rfl, ih]
      show (welford last ct).count + sumCounts rest = last.count + sumCounts (ct :: rest)
      simp only [welford, sumCounts, List.map_cons, List.sum_cons]
      ring
    | false =>
      rw [if_neg Bool.false_ne_true]
      show sumCounts (last :: mergeRecOut fits mc (mc + ct.count) ct rest) = _
      simp only [sumCounts, List.map_cons, List.sum_cons]
      have := ih mc (mc + ct.count) ct
      simp only [sumCounts] at this
      rw [this]

/-- The merged counts stay at least 1 when all inputs are. -/
theorem mergeRecOut_counts_pos (fits : FitsFun) :
    ∀ (l : List CentroidPod) (b mc : ℤ) (last : CentroidPod),
      (∀ x ∈ l, 1 ≤ x.count) → 1 ≤ last.count →
      ∀ x ∈ mergeRecOut fits b mc last l, 1 ≤ x.count := by
  intro l
  induction l with
  | nil =>
    intro b mc last _ hlast x hx
    rw [mergeRecOut] at hx
    rcases List.mem_singleton.mp hx with rfl
    exact hlast
  | cons ct rest ih =>
    intro b mc last hcnt hlast
    rw [mergeRecOut]
    cases hF : fits b (ct.count + mc) with
    | true =>
      rw [if_pos rfl]
      refine ih _ _ _ (fun y hy => hcnt y (List.mem_cons_of_mem _ hy)) ?_
      show 1 ≤ last.count + ct.count
      have := hcnt ct (List.mem_cons_self _ _)
      omega
    | false =>
      rw [if_neg Bool.false_ne_true]
      intro x hx
      rcases List.mem_cons.mp hx with rfl | hx2
      · exact hlast
      · exact ih _ _ _ (fun y hy => hcnt y (List.mem_cons_of_mem _ hy))
          (hcnt ct (List.mem_cons_self _ _)) x hx2

/-- The merge preserves the exact sum of mean times count. -/
theorem sumMeanCounts_mergeRecOut (fits : FitsFun) :
    ∀ (l : List CentroidPod) (b mc : ℤ) (last : CentroidPod),
      (∀ x ∈ l, 1 ≤ x.count) → 1 ≤ last.count →
      sumMeanCounts (mergeRecOut fits b mc last l) =
        last.mean * (last.count : ℚ) + sumMeanCounts l := by
  intro l
  induction l with
  | nil => intro b mc last _ _; simp [mergeRecOut, sumMeanCounts]
  | cons ct rest ih =>
    intro b mc last hcnt hlast
    have hct := hcnt ct (List.mem_cons_self _ _)
    rw [mergeRecOut]
    cases hF : fits b (ct.count + mc) with
    | true =>
      rw [if_pos rfl,
        ih _ _ _ (fun y hy => hcnt y (List.mem_cons_of_mem _ hy)) (by show 1 ≤ last.count + ct.count; omega)]
      have hne : ((last.count + ct.count : ℤ) : ℚ) ≠ 0 := by
        have h0 : last.count + ct.count ≠ 0 := by omega
        exact_mod_cast h0
      rw [welford_sum last ct hne]
      simp only [sumMeanCounts, List.map_cons, List.sum_cons]
      ring
    | false =>
      rw [if_neg Bool.false_ne_true]
      show sumMeanCounts (last :: _) = _
      simp only [sumMeanCounts, List.map_cons, List.sum_cons]
      have hih := ih mc (mc + ct.count) ct (fun y hy => hcnt y (List.mem_cons_of_mem _ hy)) hct
      simp only [sumMeanCounts] at hih
      rw [hih]

/-- The head of the merged output has at least the pending centroid's
count. -/
theorem mergeRecOut_head_count_ge (fits : FitsFun) :
    ∀ (l : List CentroidPod) (b mc : ℤ) (last : CentroidPod),
      (∀ x ∈ l, 0 ≤ x.count) →
      last.count ≤ (mergeRecOut fits b mc last l).headI.count := by
  intro l
  induction l with
  | nil => intro b mc last _; rw [mergeRecOut]; exact le_refl _
  | cons ct rest ih =>
    intro b mc last hcnt
    rw [mergeRecOut]
    cases hF : fits b (ct.count + mc) with
    | true =>
      rw [if_pos rfl]
      refine le_trans ?_ (ih _ _ _ (fun y hy => hcnt y (List.mem_cons_of_mem _ hy)))
      show last.count ≤ last.count + ct.count
      have := hcnt ct (List.mem_cons_self _ _)
      omega
    | false =>
      rw [if_neg Bool.false_ne_true]
      exact le_refl _

/-- The centroid-count bound along the merge: the potential of the current
q_limit boundary dominates half the number of already placed centroids
(strictly, once a placement has happened), which bounds the total output
length through the potential's range `[0, c]`. -/
theorem mergeRecOut_length_bound (fits : FitsFun) (c : ℚ) (total : ℤ) (φ : ℤ → ℝ)
    (hs : ScaleOk fits c total φ) (hc : 0 < c) :
    ∀ (l : List CentroidPod) (b mc : ℤ) (last : CentroidPod) (p : ℕ),
      (∀ x ∈ l, 0 ≤ x.count) →
      0 ≤ b → b ≤ mc → mc + sumCounts l ≤ total →
      ((p / 2 : ℕ) : ℝ) ≤ φ b →
      (((p + 1) / 2 : ℕ) : ℝ) ≤ φ mc →
      (1 ≤ p → (((p + 1) / 2 : ℕ) : ℝ) < φ mc) →
      (p : ℤ) + (mergeRecOut fits b mc last l).length ≤ 2 * ⌈c⌉ := by
  intro l
  induction l with
  | nil =>
    intro b mc last p _ hb hbmc htot hJ1 hJ2 hJs
    rw [mergeRecOut]
    have hmc0 : 0 ≤ mc := le_trans hb hbmc
    have hmct : mc ≤ total := by
      simpa [sumCounts] using htot
    have hceil : (1 : ℤ) ≤ ⌈c⌉ := Int.ceil_pos.mpr hc
    by_cases hp : 1 ≤ p
    · have h1 := hJs hp
      have h2 : φ mc ≤ (c : ℝ) := hs.bound hmc0 hmct
      have h4 : ((((p + 1) / 2 : ℕ) : ℤ) : ℚ) < c := by
        have h3 : (((p + 1) / 2 : ℕ) : ℝ) < ((c : ℚ) : ℝ) := lt_of_lt_of_le h1 h2
        exact_mod_cast h3
      have h5 : (((p + 1) / 2 : ℕ) : ℤ) < ⌈c⌉ := Int.lt_ceil.mpr h4
      simp only [List.length_singleton]
      omega
    · have hp0 : p = 0 := by omega
      subst hp0
      simp only [List.length_singleton]
      omega
  | cons ct rest ih =>
    intro b mc last p hcnt hb hbmc htot hJ1 hJ2 hJs
    have hct : 0 ≤ ct.count := hcnt ct (List.mem_cons_self _ _)
    have hrestcnt : ∀ x ∈ rest, 0 ≤ x.count := fun y hy => hcnt y (List.mem_cons_of_mem _ hy)
    have hrestsum : 0 ≤ sumCounts rest := by
      unfold sumCounts
      apply List.sum_nonneg
      intro z hz
      rcases List.mem_map.mp hz with ⟨y, hy, rfl⟩
      exact hrestcnt y hy
    have htot2 : (mc + ct.count) + sumCounts rest ≤ total := by
      simp only [sumCounts, List.map_cons, List.sum_cons] at htot
      simp only [sumCounts]
      omega
    rw [mergeRecOut]
    cases hF : fits b (ct.count + mc) with
    | true =>
      rw [if_pos rfl]
      refine ih b (mc + ct.count) (welford last ct) p hrestcnt hb (by omega) htot2 hJ1 ?_ ?_
      · exact le_trans hJ2 (hs.mono (by omega))
      · intro hp
        exact lt_of_lt_of_le (hJs hp) (hs.mono (by omega))
    | false =>
      rw [if_neg Bool.false_ne_true]
      have hm0 : 0 ≤ ct.count + mc := by omega
      have hmt : ct.count + mc ≤ total := by omega
      have hsplit := hs.split hb hm0 hmt hF
      have hdiv : ((p + 2) / 2 : ℕ) = p / 2 + 1 := by omega
      have hJ2' : (((p + 1 + 1) / 2 : ℕ) : ℝ) < φ (mc + ct.count) := by
        rw [show p + 1 + 1 = p + 2 from rfl, hdiv]
        push_cast
        rw [show mc + ct.count = ct.count + mc from by ring]
        linarith
      have hbound := ih mc (mc + ct.count) ct (p + 1) hrestcnt (by omega) (by omega) htot2
        hJ2 (le_of_lt hJ2') (fun _ => hJ2')
      simp only [List.length_cons]
      push_cast at hbound ⊢
      omega

/-! ### The genuine scale function satisfies the interface -/

/-- The genuine potential is nonnegative. -/
theorem phiGrpc_nonneg (c : ℚ) (total : ℤ) (hc : 0 ≤ c) (m : ℤ) :
    0 ≤ phiGrpc c total m := by
  unfold phiGrpc QuantileToCentroid
  have h1 : -(Real.pi / 2) ≤ Real.arcsin (2 * ((m : ℝ) / (total : ℝ)) - 1) :=
    Real.neg_pi_div_two_le_arcsin _
  have hπ := Real.pi_pos
  have hcR : (0 : ℝ) ≤ ((c : ℚ) : ℝ) := by exact_mod_cast hc
  apply div_nonneg (mul_nonneg hcR (by linarith)) hπ.le

/-- The genuine decision family (arcsine scale function) satisfies the
abstract interface backing the centroid-count bound. -/
theorem grpcScaleOk (c : ℚ) (total : ℤ) (hc : 0 < c) (ht : 0 < total) :
    ScaleOk (grpcFits c total) c total (phiGrpc c total) := by
  have htR : (0 : ℝ) < (total : ℝ) := by exact_mod_cast ht
  have hcR : (0 : ℝ) < ((c : ℚ) : ℝ) := by exact_mod_cast hc
  have hπ := Real.pi_pos
  refine ⟨?_, ?_, ?_, ?_⟩
  · -- monotone
    intro a b hab
    unfold phiGrpc QuantileToCentroid
    have hdiv : (a : ℝ) / total ≤ (b : ℝ) / total := by
      apply (div_le_div_right htR).mpr
      exact_mod_cast hab
    have harc : Real.arcsin (2 * ((a : ℝ) / total) - 1) ≤
        Real.arcsin (2 * ((b : ℝ) / total) - 1) :=
      Real.monotone_arcsin (by linarith)
    exact (div_le_div_right hπ).mpr (mul_le_mul_of_nonneg_left (by linarith) hcR.le)
  · -- zero
    unfold phiGrpc QuantileToCentroid
    norm_num [Real.arcsin_neg_one]
  · -- bound
    intro m hm0 hmt
    unfold phiGrpc QuantileToCentroid
    have h1 : Real.arcsin (2 * ((m : ℝ) / total) - 1) ≤ Real.pi / 2 :=
      Real.arcsin_le_pi_div_two _
    calc ((c : ℚ) : ℝ) * (Real.arcsin (2 * ((m : ℝ) / total) - 1) + Real.pi / 2) / Real.pi
        ≤ ((c : ℚ) : ℝ) * (Real.pi / 2 + Real.pi / 2) / Real.pi :=
          (div_le_div_right hπ).mpr (mul_le_mul_of_nonneg_left (by linarith) hcR.le)
      _ = ((c : ℚ) : ℝ) := by field_simp
  · -- split
    intro b m hb hm0 hmt hfits
    have hlt : qLimit c total b < (m : ℝ) := not_le.mp ((grpcFits_false_iff c total b m).mp hfits)
    have hx0 : 0 ≤ phiGrpc c total b := phiGrpc_nonneg c total hc.le b
    have hF1 : qLimit c total b =
        (total : ℝ) * CentroidToQuantile (c : ℝ) (phiGrpc c total b + 1) := rfl
    by_cases hxc : phiGrpc c total b + 1 ≤ ((c : ℚ) : ℝ)
    · -- the q_limit boundary stays below the compression: arcsin unwinds sin
      have hq : qLimit c total b = (total : ℝ) *
          ((Real.sin ((phiGrpc c total b + 1) * Real.pi / ((c : ℚ) : ℝ) - Real.pi / 2) + 1) / 2) := by
        rw [hF1]
        unfold CentroidToQuantile
        rw [min_eq_left hxc]
      have hθ1 : -(Real.pi / 2) ≤
          (phiGrpc c total b + 1) * Real.pi / ((c : ℚ) : ℝ) - Real.pi / 2 := by
        have : 0 ≤ (phiGrpc c total b + 1) * Real.pi / ((c : ℚ) : ℝ) := by positivity
        linarith
      have hθ2 : (phiGrpc c total b + 1) * Real.pi / ((c : ℚ) : ℝ) - Real.pi / 2 ≤ Real.pi / 2 := by
        have h2 : (phiGrpc c total b + 1) * Real.pi ≤ ((c : ℚ) : ℝ) * Real.pi :=
          mul_le_mul_of_nonneg_right hxc hπ.le
        have h3 : (phiGrpc c total b + 1) * Real.pi / ((c : ℚ) : ℝ) ≤ Real.pi := by
          rw [div_le_iff hcR]
          linarith [h2]
        linarith
      have h5 : Real.sin ((phiGrpc c total b + 1) * Real.pi / ((c : ℚ) : ℝ) - Real.pi / 2) <
          2 * ((m : ℝ) / total) - 1 := by
        rw [hq, mul_comm] at hlt
        have h6 := (lt_div_iff htR).mpr hlt
        linarith [h6]
      have hmem1 : Real.sin ((phiGrpc c total b + 1) * Real.pi / ((c : ℚ) : ℝ) - Real.pi / 2) ∈
          Set.Icc (-1 : ℝ) 1 := ⟨Real.neg_one_le_sin _, Real.sin_le_one _⟩
      have hmem2 : 2 * ((m : ℝ) / total) - 1 ∈ Set.Icc (-1 : ℝ) 1 := by
        constructor
        · have : (0 : ℝ) ≤ (m : ℝ) / total := div_nonneg (by exact_mod_cast hm0) htR.le
          linarith
        · have : (m : ℝ) / total ≤ 1 := by
            rw [div_le_one htR]
            exact_mod_cast hmt
          linarith
      have h7 := Real.strictMonoOn_arcsin hmem1 hmem2 h5
      have h8 : Real.arcsin (Real.sin
            ((phiGrpc c total b + 1) * Real.pi / ((c : ℚ) : ℝ) - Real.pi / 2)) =
          (phiGrpc c total b + 1) * Real.pi / ((c : ℚ) : ℝ) - Real.pi / 2 :=
        Real.arcsin_sin hθ1 hθ2
      have h9 : ((c : ℚ) : ℝ) *
          (((phiGrpc c total b + 1) * Real.pi / ((c : ℚ) : ℝ) - Real.pi / 2) + Real.pi / 2) /
            Real.pi = phiGrpc c total b + 1 := by
        field_simp
        ring
      have h10 : phiGrpc c total m = ((c : ℚ) : ℝ) *
          (Real.arcsin (2 * ((m : ℝ) / total) - 1) + Real.pi / 2) / Real.pi := rfl
      rw [h10, ← h9]
      apply (div_lt_div_right hπ).mpr
      apply mul_lt_mul_of_pos_left _ hcR
      rw [h8] at h7
      linarith [h7]
    · -- the boundary is clamped: q_limit equals the total count, contradiction
      exfalso
      have hclamp : qLimit c total b = (total : ℝ) := by
        rw [hF1]
        unfold CentroidToQuantile
        rw [min_eq_right (le_of_not_le hxc)]
        have harg : ((c : ℚ) : ℝ) * Real.pi / ((c : ℚ) : ℝ) - Real.pi / 2 = Real.pi / 2 := by
          field_simp
          ring
        rw [harg, Real.sin_pi_div_two]
        norm_num
      rw [hclamp] at hlt
      have : (m : ℝ) ≤ (total : ℝ) := by exact_mod_cast hmt
      linarith

/-! ### Sortedness of the merged output -/

/-- The lexicographic sort order refines the mean order. -/
theorem sorted_meanLE_of_centLex {l : List CentroidPod} (h : l.Sorted centLex) :
    l.Sorted meanLE := by
  refine h.imp ?_
  intro a b hab
  rcases hab with h1 | ⟨h1, _⟩
  · exact le_of_lt h1
  · exact le_of_eq h1

/-- The sorted centroid buffer is sorted by mean and a permutation of the
input. -/
theorem sortCentroids_sorted (l : List CentroidPod) :
    (sortCentroids l).Sorted meanLE :=
  sorted_meanLE_of_centLex (List.sorted_insertionSort centLex l)

/-- Sorting permutes. -/
theorem sortCentroids_perm (l : List CentroidPod) : (sortCentroids l).Perm l :=
  List.perm_insertionSort centLex l

/-- `sumCounts` is invariant under permutation. -/
theorem sumCounts_perm {l l2 : List CentroidPod} (h : l.Perm l2) :
    sumCounts l = sumCounts l2 :=
  (h.map CentroidPod.count).sum_eq

/-- `sumMeanCounts` is invariant under permutation. -/
theorem sumMeanCounts_perm {l l2 : List CentroidPod} (h : l.Perm l2) :
    sumMeanCounts l = sumMeanCounts l2 :=
  (h.map _).sum_eq

/-- In a mean-sorted list every element dominates the head. -/
theorem sorted_headI_le {l : List CentroidPod} (h : l.Sorted meanLE) :
    ∀ x ∈ l, l.headI.mean ≤ x.mean := by
  cases l with
  | nil => intro x hx; cases hx
  | cons a rest =>
    intro x hx
    rcases List.mem_cons.mp hx with rfl | hx2
    · exact le_refl _
    · exact List.rel_of_sorted_cons h x hx2

/-- In a mean-sorted list every element is dominated by the last element. -/
theorem sorted_le_getLast :
    ∀ (l : List CentroidPod) (hne : l ≠ []), l.Sorted meanLE →
      ∀ x ∈ l, x.mean ≤ (l.getLast hne).mean := by
  intro l
  induction l with
  | nil => intro hne; exact absurd rfl hne
  | cons a rest ih =>
    intro _ hs x hx
    cases rest with
    | nil =>
      rcases List.mem_singleton.mp hx with rfl
      exact le_refl _
    | cons b t =>
      rw [List.getLast_cons (List.cons_ne_nil b t)]
      rcases List.mem_cons.mp hx with rfl | hx2
      · exact List.rel_of_sorted_cons hs _ (List.getLast_mem _)
      · exact ih (List.cons_ne_nil b t) hs.of_cons x hx2

/-- `getLastI` version of `sorted_le_getLast` for nonempty lists. -/
theorem sorted_le_getLastI {l : List CentroidPod} (hne : l ≠ [])
    (h : l.Sorted meanLE) : ∀ x ∈ l, x.mean ≤ l.getLastI.mean := by
  intro x hx
  rw [List.getLastI_eq_getLast?, List.getLast?_eq_getLast l hne]
  exact sorted_le_getLast l hne h x hx

/-- Welford's mean as a weighted average. -/
theorem welford_avg (last ct : CentroidPod) (h : ((last.count + ct.count : ℤ) : ℚ) ≠ 0) :
    (welford last ct).mean =
      (last.mean * (last.count : ℚ) + ct.mean * (ct.count : ℚ)) /
        ((last.count + ct.count : ℤ) : ℚ) := by
  have h2 : (last.count : ℚ) + (ct.count : ℚ) ≠ 0 := by
    intro hx
    apply h
    push_cast
    linarith
  unfold welford
  dsimp only
  push_cast
  field_simp
  ring

/-- The absorbed mean lies between the two input means (positive counts). -/
theorem welford_mean_between (last ct : CentroidPod) (hl : 1 ≤ last.count)
    (hc : 1 ≤ ct.count) (hle : last.mean ≤ ct.mean) :
    last.mean ≤ (welford last ct).mean ∧ (welford last ct).mean ≤ ct.mean := by
  have hd : (0 : ℚ) < ((last.count + ct.count : ℤ) : ℚ) := by
    have : (0 : ℤ) < last.count + ct.count := by omega
    exact_mod_cast this
  have hLpos : (0 : ℚ) < (last.count : ℚ) := by exact_mod_cast (by omega : (0:ℤ) < last.count)
  have hCpos : (0 : ℚ) < (ct.count : ℚ) := by exact_mod_cast (by omega : (0:ℤ) < ct.count)
  rw [welford_avg last ct hd.ne.symm]
  constructor
  · rw [le_div_iff hd]
    push_cast
    nlinarith
  · rw [div_le_iff hd]
    push_cast
    nlinarith

/-- The absorbed mean stays inside any interval containing both input
means. -/
theorem welford_mean_convex (last ct : CentroidPod) (hl : 1 ≤ last.count)
    (hc : 1 ≤ ct.count) {lo hi : ℚ} (h1 : lo ≤ last.mean) (h2 : last.mean ≤ hi)
    (h3 : lo ≤ ct.mean) (h4 : ct.mean ≤ hi) :
    lo ≤ (welford last ct).mean ∧ (welford last ct).mean ≤ hi := by
  have hd : (0 : ℚ) < ((last.count + ct.count : ℤ) : ℚ) := by
    have : (0 : ℤ) < last.count + ct.count := by omega
    exact_mod_cast this
  have hLpos : (0 : ℚ) < (last.count : ℚ) := by exact_mod_cast (by omega : (0:ℤ) < last.count)
  have hCpos : (0 : ℚ) < (ct.count : ℚ) := by exact_mod_cast (by omega : (0:ℤ) < ct.count)
  rw [welford_avg last ct hd.ne.symm]
  constructor
  · rw [le_div_iff hd]
    push_cast
    nlinarith
  · rw [div_le_iff hd]
    push_cast
    nlinarith

/-- The merged output is sorted by mean and dominates the pending centroid's
mean, provided the input is sorted and above it. -/
theorem mergeRecOut_sorted (fits : FitsFun) :
    ∀ (l : List CentroidPod) (b mc : ℤ) (last : CentroidPod),
      (∀ x ∈ l, 1 ≤ x.count) → 1 ≤ last.count →
      l.Sorted meanLE → (∀ x ∈ l, last.mean ≤ x.mean) →
      (mergeRecOut fits b mc last l).Sorted meanLE ∧
      (∀ x ∈ mergeRecOut fits b mc last l, last.mean ≤ x.mean) := by
  intro l
  induction l with
  | nil =>
    intro b mc last _ _ _ _
    rw [mergeRecOut]
    exact ⟨List.sorted_singleton _, by
      intro x hx
      rcases List.mem_singleton.mp hx with rfl
      exact le_refl _⟩
  | cons ct rest ih =>
    intro b mc last hcnt hlast hsort habove
    have hct : 1 ≤ ct.count := hcnt ct (List.mem_cons_self _ _)
    have hle : last.mean ≤ ct.mean := habove ct (List.mem_cons_self _ _)
    have hbet := welford_mean_between last ct hlast hct hle
    rw [mergeRecOut]
    cases hF : fits b (ct.count + mc) with
    | true =>
      rw [if_pos rfl]
      have hres := ih b (mc + ct.count) (welford last ct)
        (fun y hy => hcnt y (List.mem_cons_of_mem _ hy))
        (by show 1 ≤ last.count + ct.count; omega)
        hsort.of_cons
        (fun y hy => le_trans hbet.2 (List.rel_of_sorted_cons hsort y hy))
      exact ⟨hres.1, fun x hx => le_trans hbet.1 (hres.2 x hx)⟩
    | false =>
      rw [if_neg Bool.false_ne_true]
      have hres := ih mc (mc + ct.count) ct
        (fun y hy => hcnt y (List.mem_cons_of_mem _ hy)) hct
        hsort.of_cons (List.rel_of_sorted_cons hsort)
      constructor
      · rw [List.sorted_cons]
        exact ⟨fun x hx => le_trans hle (hres.2 x hx), hres.1⟩
      · intro x hx
        rcases List.mem_cons.mp hx with rfl | hx2
        · exact le_refl _
        · exact le_trans hle (hres.2 x hx2)

/-- Every merged mean stays inside an interval containing all input means. -/
theorem mergeRecOut_means_convex (fits : FitsFun) :
    ∀ (l : List CentroidPod) (b mc : ℤ) (last : CentroidPod) (lo hi : ℚ),
      (∀ x ∈ l, 1 ≤ x.count) → 1 ≤ last.count →
      (∀ x ∈ l, lo ≤ x.mean ∧ x.mean ≤ hi) → lo ≤ last.mean → last.mean ≤ hi →
      ∀ x ∈ mergeRecOut fits b mc last l, lo ≤ x.mean ∧ x.mean ≤ hi := by
  intro l
  induction l with
  | nil =>
    intro b mc last lo hi _ _ _ hlo hhi x hx
    rw [mergeRecOut] at hx
    rcases List.mem_singleton.mp hx with rfl
    exact ⟨hlo, hhi⟩
  | cons ct rest ih =>
    intro b mc last lo hi hcnt hlast hmem hlo hhi
    have hct : 1 ≤ ct.count := hcnt ct (List.mem_cons_self _ _)
    have hmemct := hmem ct (List.mem_cons_self _ _)
    rw [mergeRecOut]
    cases hF : fits b (ct.count + mc) with
    | true =>
      rw [if_pos rfl]
      have hconv := welford_mean_convex last ct hlast hct hlo hhi hmemct.1 hmemct.2
      exact ih b (mc + ct.count) (welford last ct) lo hi
        (fun y hy => hcnt y (List.mem_cons_of_mem _ hy))
        (by show 1 ≤ last.count + ct.count; omega)
        (fun y hy => hmem y (List.mem_cons_of_mem _ hy)) hconv.1 hconv.2
    | false =>
      rw [if_neg Bool.false_ne_true]
      intro x hx
      rcases List.mem_cons.mp hx with rfl | hx2
      · exact ⟨hlo, hhi⟩
      · exact ih mc (mc + ct.count) ct lo hi
          (fun y hy => hcnt y (List.mem_cons_of_mem _ hy)) hct
          (fun y hy => hmem y (List.mem_cons_of_mem _ hy)) hmemct.1 hmemct.2 x hx2

/-! ### Small helper lemmas for the invariant -/

/-- Appending splits the count sum. -/
theorem sumCounts_append (a b : List CentroidPod) :
    sumCounts (a ++ b) = sumCounts a + sumCounts b := by
  simp [sumCounts]

/-- Count sums of nonnegative centroid lists are nonnegative. -/
theorem sumCounts_nonneg {l : List CentroidPod} (h : ∀ x ∈ l, 0 ≤ x.count) :
    0 ≤ sumCounts l := by
  unfold sumCounts
  apply List.sum_nonneg
  intro z hz
  rcases List.mem_map.mp hz with ⟨y, hy, rfl⟩
  exact h y hy

/-- A nonempty list of positive-count centroids has positive count sum. -/
theorem sumCounts_pos {l : List CentroidPod} (h : ∀ x ∈ l, 1 ≤ x.count)
    (hne : l ≠ []) : 1 ≤ sumCounts l := by
  cases l with
  | nil => exact absurd rfl hne
  | cons a rest =>
    have h1 : 1 ≤ a.count := h a (List.mem_cons_self _ _)
    have h2 : 0 ≤ sumCounts rest :=
      sumCounts_nonneg fun y hy => le_trans (by norm_num) (h y (List.mem_cons_of_mem _ hy))
    simp only [sumCounts, List.map_cons, List.sum_cons]
    simp only [sumCounts] at h2
    omega

/-- A positive-count centroid list summing to one is a single unit
centroid. -/
theorem count_one_single {l : List CentroidPod} (hpos : ∀ x ∈ l, 1 ≤ x.count)
    (hsum : sumCounts l = 1) : ∃ v, l = [⟨v, 1⟩] := by
  cases l with
  | nil => simp [sumCounts] at hsum
  | cons a rest =>
    cases rest with
    | nil =>
      have : a.count = 1 := by
        simp only [sumCounts, List.map_cons, List.map_nil, List.sum_cons, List.sum_nil] at hsum
        omega
      exact ⟨a.mean, by rw [show a = ⟨a.mean, 1⟩ from by cases a with | mk m c => simp_all]⟩
    | cons b t =>
      exfalso
      have h1 : 1 ≤ a.count := hpos a (List.mem_cons_self _ _)
      have h2 : 1 ≤ sumCounts (b :: t) :=
        sumCounts_pos (fun y hy => hpos y (List.mem_cons_of_mem _ hy)) (List.cons_ne_nil _ _)
      have h3 : sumCounts (a :: b :: t) = a.count + sumCounts (b :: t) := by
        simp [sumCounts]
      omega

/-- The last element (inhabited form) of a nonempty list is a member. -/
theorem getLastI_mem {l : List CentroidPod} (hne : l ≠ []) : l.getLastI ∈ l := by
  rw [List.getLastI_eq_getLast?, List.getLast?_eq_getLast l hne]
  exact List.getLast_mem hne

/-- The head (inhabited form) of a nonempty list is a member. -/
theorem headI_mem {l : List CentroidPod} (hne : l ≠ []) : l.headI ∈ l := by
  cases l with
  | nil => exact absurd rfl hne
  | cons a rest => exact List.mem_cons_self _ _

/-! ### The invariant is preserved by DoMerge -/

/-- `DoMerge` with the genuine decision family preserves the invariant (with
any pending list) and produces a quiescent, sorted, bounded buffer. -/
theorem WFx_doMerge {s : TDigest} {pend : List CentroidPod} (h : WFx s pend) :
    WFx (s.doMerge grpcFits) pend ∧ (s.doMerge grpcFits).unmerged = 0 := by
  by_cases h0 : s.unmerged = 0
  · rw [TDigest.doMerge, if_pos h0]
    exact ⟨h, h0⟩
  · have hne : s.centroids ≠ [] := by
      intro hnil
      have hl := h.lenEq
      rw [hnil] at hl
      simp only [List.length_nil, Nat.cast_zero] at hl
      have := h.mergedNonneg
      have := h.unmergedNonneg
      omega
    obtain ⟨c0, rest, hsort⟩ : ∃ c0 rest, sortCentroids s.centroids = c0 :: rest := by
      cases hs : sortCentroids s.centroids with
      | nil =>
        exfalso
        have hperm := sortCentroids_perm s.centroids
        rw [hs] at hperm
        exact hne hperm.symm.eq_nil
      | cons a b => exact ⟨a, b, rfl⟩
    have hperm : (c0 :: rest).Perm s.centroids := by
      rw [← hsort]
      exact sortCentroids_perm _
    have hmemT : ∀ x ∈ c0 :: rest, x ∈ s.centroids ++ pend := fun x hx =>
      List.mem_append.mpr (Or.inl (hperm.mem_iff.mp hx))
    have hcntS : ∀ x ∈ c0 :: rest, 1 ≤ x.count := fun x hx => h.countsPos x (hmemT x hx)
    have hc0 : 1 ≤ c0.count := hcntS c0 (List.mem_cons_self _ _)
    have hrestCnt : ∀ x ∈ rest, 1 ≤ x.count := fun x hx =>
      hcntS x (List.mem_cons_of_mem _ hx)
    have hsorted : (c0 :: rest).Sorted meanLE := by
      rw [← hsort]
      exact sortCentroids_sorted _
    have hdm := doMerge_eq grpcFits s c0 rest h0 hsort
    have houtSorted := mergeRecOut_sorted (grpcFits s.compression s.count) rest 0 c0.count c0
      hrestCnt hc0 hsorted.of_cons (List.rel_of_sorted_cons hsorted)
    have houtCnt := mergeRecOut_counts_pos (grpcFits s.compression s.count) rest 0 c0.count c0
      hrestCnt hc0
    have houtNe : mergeRecOut (grpcFits s.compression s.count) 0 c0.count c0 rest ≠ [] :=
      mergeRecOut_ne_nil _ _ _ _ _
    have hsumCents : sumCounts (c0 :: rest) = sumCounts s.centroids := sumCounts_perm hperm
    have houtSum : sumCounts (mergeRecOut (grpcFits s.compression s.count) 0 c0.count c0 rest) =
        sumCounts s.centroids := by
      rw [sumCounts_mergeRecOut, ← hsumCents]
      simp [sumCounts]
    have hmeansIn : ∀ x ∈ c0 :: rest, -dblMax ≤ x.mean ∧ x.mean ≤ dblMax := fun x hx =>
      abs_le.mp (h.meansBound x (hmemT x hx))
    have houtConvex := mergeRecOut_means_convex (grpcFits s.compression s.count) rest 0 c0.count
      c0 (-dblMax) dblMax hrestCnt hc0
      (fun y hy => hmeansIn y (List.mem_cons_of_mem _ hy))
      (hmeansIn c0 (List.mem_cons_self _ _)).1 (hmeansIn c0 (List.mem_cons_self _ _)).2
    have hpendCnt : ∀ x ∈ pend, 1 ≤ x.count := fun x hx =>
      h.countsPos x (List.mem_append.mpr (Or.inr hx))
    have hcents1 : 1 ≤ sumCounts s.centroids := by
      rw [← hsumCents]
      exact sumCounts_pos hcntS (List.cons_ne_nil _ _)
    have hpend0 : 0 ≤ sumCounts pend :=
      sumCounts_nonneg fun x hx => le_trans (by norm_num) (hpendCnt x hx)
    have htotpos : 0 < s.count := by
      rw [h.countSum]
      omega
    have hbound : ((mergeRecOut (grpcFits s.compression s.count) 0 c0.count c0 rest).length : ℤ) ≤
        2 * ⌈s.compression⌉ := by
      have hSO := grpcScaleOk s.compression s.count h.cpos htotpos
      have htot : c0.count + sumCounts rest ≤ s.count := by
        have : c0.count + sumCounts rest = sumCounts s.centroids := by
          rw [← hsumCents]
          simp [sumCounts]
        rw [h.countSum, this]
        omega
      have := mergeRecOut_length_bound (grpcFits s.compression s.count) s.compression s.count
        (phiGrpc s.compression s.count) hSO h.cpos rest 0 c0.count c0 0
        (fun x hx => le_trans (by norm_num) (hrestCnt x hx))
        (le_refl 0) (by omega) htot
        (by rw [hSO.zero]; norm_num)
        (by
          have := phiGrpc_nonneg s.compression s.count h.cpos.le c0.count
          have h12 : ((1 / 2 : ℕ) : ℝ) = 0 := by norm_num
          rw [show (0 + 1) = 1 from rfl, h12]
          exact this)
        (by omega)
      simpa using this
    rw [hdm]
    refine ⟨⟨h.cpos, h.cbound, h.batch, ?_, ?_, le_refl 0, ?_, ?_, ?_, ?_, ?_, ?_, ?_, ?_, ?_,
      ?_, ?_⟩, rfl⟩
    · show ((mergeRecOut _ 0 c0.count c0 rest).length : ℤ) + 0 = _
      simp
    · show (0 : ℤ) ≤ ((mergeRecOut _ 0 c0.count c0 rest).length : ℤ)
      positivity
    · -- countsPos
      intro x hx
      rcases List.mem_append.mp hx with hx1 | hx2
      · exact houtCnt x hx1
      · exact hpendCnt x hx2
    · -- countSum
      show s.count = sumCounts (mergeRecOut _ 0 c0.count c0 rest) + sumCounts pend
      rw [houtSum]
      exact h.countSum
    · -- meansBound
      intro x hx
      rcases List.mem_append.mp hx with hx1 | hx2
      · exact abs_le.mpr (houtConvex x hx1)
      · exact h.meansBound x (List.mem_append.mpr (Or.inr hx2))
    · -- minLe
      intro x hx
      rcases List.mem_append.mp hx with hx1 | hx2
      · exact le_trans (min_le_right _ _) (sorted_headI_le houtSorted.1 x hx1)
      · exact le_trans (min_le_left _ _) (h.minLe x (List.mem_append.mpr (Or.inr hx2)))
    · -- maxGe
      intro x hx
      rcases List.mem_append.mp hx with hx1 | hx2
      · exact le_trans (sorted_le_getLastI houtNe houtSorted.1 x hx1) (le_max_right _ _)
      · exact le_trans (h.maxGe x (List.mem_append.mpr (Or.inr hx2))) (le_max_left _ _)
    · -- minBound
      constructor
      · exact le_min h.minBound.1 (houtConvex _ (headI_mem houtNe)).1
      · exact le_trans (min_le_left _ _) h.minBound.2
    · -- maxBound
      constructor
      · exact le_trans h.maxBound.1 (le_max_left _ _)
      · exact max_le h.maxBound.2 (houtConvex _ (getLastI_mem houtNe)).2
    · -- emptyCase
      intro hc
      exact absurd (h.emptyCase hc).1 hne
    · -- singleCase
      intro x hx hc1
      have hc1s : s.count = 1 := hc1
      have hpendNil : pend = [] := by
        by_contra hpne
        have h1 := sumCounts_pos hpendCnt hpne
        have h2 := h.countSum
        omega
      have hsc1 : sumCounts s.centroids = 1 := by
        have h2 := h.countSum
        rw [hpendNil, show sumCounts ([] : List CentroidPod) = 0 from rfl] at h2
        omega
      obtain ⟨v, hv⟩ := count_one_single
        (fun y hy => h.countsPos y (List.mem_append.mpr (Or.inl hy))) hsc1
      have hcr : c0 = (⟨v, 1⟩ : CentroidPod) ∧ rest = [] := by
        have := hperm
        rw [hv] at this
        have hlen := this.length_eq
        simp at hlen
        cases rest with
        | nil =>
          constructor
          · have hmem := this.mem_iff.mpr (show (⟨v,1⟩ : CentroidPod) ∈ [⟨v,1⟩] by simp)
            have h9 : (⟨v, 1⟩ : CentroidPod) = c0 := by simpa using hmem
            exact h9.symm
          · rfl
        | cons q qs => simp at hlen
      obtain ⟨hc0v, hrestnil⟩ := hcr
      subst hc0v
      subst hrestnil
      have hvmem : (⟨v, 1⟩ : CentroidPod) ∈ s.centroids ++ pend := by
        rw [hv]
        simp
      have hsingle := h.singleCase (⟨v, 1⟩ : CentroidPod) hvmem hc1s
      rw [hpendNil] at hx
      rw [mergeRecOut] at hx ⊢
      simp only [List.append_nil] at hx
      rcases List.mem_singleton.mp hx with rfl
      refine ⟨?_, ?_, ?_⟩
      · show Min.min s.min v = v
        rw [hsingle.1]
        exact min_self v
      · show Max.max s.max v = v
        rw [hsingle.2.1]
        exact max_self v
      · show sumMeanCounts [(⟨v, 1⟩ : CentroidPod)] = v
        simp [sumMeanCounts]
    · -- mergedSorted
      intro _
      exact houtSorted.1
    · -- mergedBound
      intro _
      exact hbound

/-! ### The invariant is preserved by the remaining operations -/

/-- Moving the first pending centroid into the buffer preserves
membership. -/
theorem mem_shift {cent pend : List CentroidPod} {c x : CentroidPod}
    (hx : x ∈ (cent ++ [c]) ++ pend) : x ∈ cent ++ (c :: pend) := by
  simp only [List.mem_append, List.mem_singleton, List.mem_cons] at hx ⊢
  tauto

/-- Quiescent accessor: positive counts. -/
theorem WF.countsPos' {s : TDigest} (h : WF s) : ∀ x ∈ s.centroids, 1 ≤ x.count :=
  fun x hx => h.countsPos x (List.mem_append.mpr (Or.inl hx))

/-- Quiescent accessor: the count is the centroid count sum. -/
theorem WF.countSum' {s : TDigest} (h : WF s) : s.count = sumCounts s.centroids := by
  have := h.countSum
  simpa [sumCounts] using this

/-- Quiescent accessor: the count is nonnegative. -/
theorem WF.count_nonneg {s : TDigest} (h : WF s) : 0 ≤ s.count := by
  rw [h.countSum']
  exact sumCounts_nonneg fun x hx => le_trans (by norm_num) (h.countsPos' x hx)

/-- `AddUnmergedCentroid` moves the first pending centroid into the buffer,
preserving the invariant. -/
theorem WFx_addUnmerged {s : TDigest} {c : CentroidPod} {pend : List CentroidPod}
    (h : WFx s (c :: pend)) : WFx (s.addUnmergedCentroid grpcFits c) pend := by
  have hu := h.unmergedNonneg
  have h1 : WFx { s with centroids := s.centroids ++ [c], unmerged := s.unmerged + 1 } pend := by
    refine ⟨h.cpos, h.cbound, h.batch, ?_, h.mergedNonneg, ?_, ?_, ?_, ?_, ?_, ?_,
      h.minBound, h.maxBound, ?_, ?_, ?_, ?_⟩
    · show s.merged + (s.unmerged + 1) = ((s.centroids ++ [c]).length : ℤ)
      rw [List.length_append]
      push_cast
      have := h.lenEq
      simp only [List.length_singleton]
      omega
    · show (0 : ℤ) ≤ s.unmerged + 1
      omega
    · exact fun x hx => h.countsPos x (mem_shift hx)
    · show s.count = sumCounts (s.centroids ++ [c]) + sumCounts pend
      rw [sumCounts_append, h.countSum]
      show _ + sumCounts (c :: pend) = _
      simp only [sumCounts, List.map_cons, List.sum_cons, List.map_nil, List.sum_nil]
      ring
    · exact fun x hx => h.meansBound x (mem_shift hx)
    · exact fun x hx => h.minLe x (mem_shift hx)
    · exact fun x hx => h.maxGe x (mem_shift hx)
    · intro hc
      exact absurd (h.emptyCase hc).2.1 (List.cons_ne_nil _ _)
    · exact fun x hx hc1 => h.singleCase x (mem_shift hx) hc1
    · intro habs
      exact absurd (show s.unmerged + 1 = 0 from habs) (by omega)
    · intro habs
      exact absurd (show s.unmerged + 1 = 0 from habs) (by omega)
  show WFx (if _ = _ then _ else _) pend
  by_cases hb : s.unmerged + 1 = s.batchSize
  · rw [if_pos hb]
    exact (WFx_doMerge h1).1
  · rw [if_neg hb]
    exact h1

/-- Folding all pending centroids into the digest yields a quiescent
invariant. -/
theorem WFx_fold :
    ∀ (pend : List CentroidPod) (s : TDigest), WFx s pend →
      WF (pend.foldl (fun t c => t.addUnmergedCentroid grpcFits c) s) := by
  intro pend
  induction pend with
  | nil => intro s h; exact h
  | cons c rest ih =>
    intro s h
    rw [List.foldl_cons]
    exact ih _ (WFx_addUnmerged h)

/-- A freshly reset digest with positive compression satisfies the
invariant. -/
theorem WF_emptyTD (c : ℚ) (hc : 0 < c) : WF (emptyTD c) := by
  have hcb : 0 < BoundedCompression c := by
    unfold BoundedCompression kMaxCompression
    exact lt_min (by norm_num) hc
  have hdbl : (0 : ℚ) < dblMax := by norm_num [dblMax]
  refine ⟨?_, ?_, ?_, ?_, ?_, ?_, ?_, ?_, ?_, ?_, ?_, ?_, ?_, ?_, ?_, ?_, ?_⟩
  · exact hcb
  · show BoundedCompression c ≤ kMaxCompression
    unfold BoundedCompression
    exact min_le_left _ _
  · rfl
  · show (0 : ℤ) + 0 = ((([] : List CentroidPod)).length : ℤ)
    simp
  · exact le_refl 0
  · exact le_refl 0
  · intro x hx
    have hx' : x ∈ ([] : List CentroidPod) ++ [] := hx
    simp at hx'
  · rfl
  · intro x hx
    have hx' : x ∈ ([] : List CentroidPod) ++ [] := hx
    simp at hx'
  · intro x hx
    have hx' : x ∈ ([] : List CentroidPod) ++ [] := hx
    simp at hx'
  · intro x hx
    have hx' : x ∈ ([] : List CentroidPod) ++ [] := hx
    simp at hx'
  · show -dblMax ≤ dblMax ∧ dblMax ≤ dblMax
    exact ⟨by linarith, le_refl _⟩
  · show -dblMax ≤ -dblMax ∧ -dblMax ≤ dblMax
    exact ⟨le_refl _, by linarith⟩
  · intro _
    exact ⟨rfl, rfl, rfl, rfl, rfl⟩
  · intro x hx
    have hx' : x ∈ ([] : List CentroidPod) ++ [] := hx
    simp at hx'
  · intro _
    show List.Sorted meanLE []
    simp
  · intro _
    show ((([] : List CentroidPod)).length : ℤ) ≤ 2 * ⌈BoundedCompression c⌉
    have : (1 : ℤ) ≤ ⌈BoundedCompression c⌉ := Int.ceil_pos.mpr hcb
    simp only [List.length_nil, Nat.cast_zero]
    omega

/-- `Add` preserves the invariant for nonnegative counts and
double-representable values. -/
theorem WF_add {s : TDigest} (h : WF s) (v : ℚ) (cnt : ℤ) (hcnt : 0 ≤ cnt)
    (hv : |v| ≤ dblMax) : WF (s.add grpcFits v cnt) := by
  unfold TDigest.add
  by_cases hc0 : cnt = 0
  · rw [if_pos hc0]
    exact h
  · rw [if_neg hc0]
    have habs := abs_le.mp hv
    have hcnt1 : 1 ≤ cnt := by omega
    apply WFx_addUnmerged
    refine ⟨h.cpos, h.cbound, h.batch, h.lenEq, h.mergedNonneg, h.unmergedNonneg,
      ?_, ?_, ?_, ?_, ?_, ?_, ?_, ?_, ?_, h.mergedSorted, h.mergedBound⟩
    · intro x hx
      rcases List.mem_append.mp hx with hx1 | hx2
      · exact h.countsPos' x hx1
      · rcases List.mem_singleton.mp hx2 with rfl
        exact hcnt1
    · show s.count + cnt = sumCounts s.centroids + sumCounts [⟨v, cnt⟩]
      rw [h.countSum']
      simp [sumCounts]
    · intro x hx
      rcases List.mem_append.mp hx with hx1 | hx2
      · exact h.meansBound x (List.mem_append.mpr (Or.inl hx1))
      · rcases List.mem_singleton.mp hx2 with rfl
        exact hv
    · intro x hx
      rcases List.mem_append.mp hx with hx1 | hx2
      · exact le_trans (min_le_left _ _) (h.minLe x (List.mem_append.mpr (Or.inl hx1)))
      · rcases List.mem_singleton.mp hx2 with rfl
        exact min_le_right _ _
    · intro x hx
      rcases List.mem_append.mp hx with hx1 | hx2
      · exact le_trans (h.maxGe x (List.mem_append.mpr (Or.inl hx1))) (le_max_left _ _)
      · rcases List.mem_singleton.mp hx2 with rfl
        exact le_max_right _ _
    · exact ⟨le_min h.minBound.1 habs.1, le_trans (min_le_left _ _) h.minBound.2⟩
    · exact ⟨le_trans h.maxBound.1 (le_max_left _ _), max_le h.maxBound.2 habs.2⟩
    · intro hce
      have : s.count + cnt = 0 := hce
      have := h.count_nonneg
      omega
    · intro x hx hc1
      have hc1' : s.count + cnt = 1 := hc1
      have hs0 : s.count = 0 ∧ cnt = 1 := by
        have := h.count_nonneg
        omega
      obtain ⟨hempty1, _, hmin, hmax, hsum⟩ := h.emptyCase hs0.1
      have hx' : x ∈ s.centroids ++ [(⟨v, cnt⟩ : CentroidPod)] := hx
      rw [hempty1] at hx'
      simp only [List.nil_append] at hx'
      rcases List.mem_singleton.mp hx' with rfl
      constructor
      · show Min.min s.min v = v
        rw [hmin]
        exact min_eq_right habs.2
      constructor
      · show Max.max s.max v = v
        rw [hmax]
        exact max_eq_right (by linarith [habs.1])
      · show s.sum + v * (cnt : ℚ) = v
        rw [hsum, hs0.2]
        push_cast
        ring

/-- The state at the start of `Merge`'s transfer loop (statistics folded in,
the other digest's centroids pending) satisfies the pending invariant. -/
theorem WFx_mergeD_start {s t : TDigest} (hs : WF s) (ht : WF t) :
    WFx (s.updateStats t.min t.max t.sum t.count) t.centroids := by
  refine ⟨hs.cpos, hs.cbound, hs.batch, hs.lenEq, hs.mergedNonneg, hs.unmergedNonneg,
    ?_, ?_, ?_, ?_, ?_, ?_, ?_, ?_, ?_, hs.mergedSorted, hs.mergedBound⟩
  · intro x hx
    rcases List.mem_append.mp hx with hx1 | hx2
    · exact hs.countsPos' x hx1
    · exact ht.countsPos' x hx2
  · show s.count + t.count = sumCounts s.centroids + sumCounts t.centroids
    rw [hs.countSum', ht.countSum']
  · intro x hx
    rcases List.mem_append.mp hx with hx1 | hx2
    · exact hs.meansBound x (List.mem_append.mpr (Or.inl hx1))
    · exact ht.meansBound x (List.mem_append.mpr (Or.inl hx2))
  · intro x hx
    rcases List.mem_append.mp hx with hx1 | hx2
    · exact le_trans (min_le_left _ _) (hs.minLe x (List.mem_append.mpr (Or.inl hx1)))
    · exact le_trans (min_le_right _ _) (ht.minLe x (List.mem_append.mpr (Or.inl hx2)))
  · intro x hx
    rcases List.mem_append.mp hx with hx1 | hx2
    · exact le_trans (hs.maxGe x (List.mem_append.mpr (Or.inl hx1))) (le_max_left _ _)
    · exact le_trans (ht.maxGe x (List.mem_append.mpr (Or.inl hx2))) (le_max_right _ _)
  · exact ⟨le_min hs.minBound.1 ht.minBound.1, le_trans (min_le_left _ _) hs.minBound.2⟩
  · exact ⟨le_trans hs.maxBound.1 (le_max_left _ _), max_le hs.maxBound.2 ht.maxBound.2⟩
  · intro hce
    have hce' : s.count + t.count = 0 := hce
    have h0s : s.count = 0 := by
      have := hs.count_nonneg
      have := ht.count_nonneg
      omega
    have h0t : t.count = 0 := by
      have := hs.count_nonneg
      omega
    obtain ⟨he1, _, hmin1, hmax1, hsum1⟩ := hs.emptyCase h0s
    obtain ⟨he2, _, hmin2, hmax2, hsum2⟩ := ht.emptyCase h0t
    refine ⟨he1, he2, ?_, ?_, ?_⟩
    · show Min.min s.min t.min = dblMax
      rw [hmin1, hmin2]
      exact min_self _
    · show Max.max s.max t.max = -dblMax
      rw [hmax1, hmax2]
      exact max_self _
    · show s.sum + t.sum = 0
      rw [hsum1, hsum2]
      ring
  · intro x hx hc1
    have hc1' : s.count + t.count = 1 := hc1
    have hd : (s.count = 1 ∧ t.count = 0) ∨ (s.count = 0 ∧ t.count = 1) := by
      have := hs.count_nonneg
      have := ht.count_nonneg
      omega
    rcases hd with ⟨hs1, ht0⟩ | ⟨hs0, ht1⟩
    · obtain ⟨he2, _, hmin2, hmax2, hsum2⟩ := ht.emptyCase ht0
      rw [he2, List.append_nil] at hx
      have hsg := hs.singleCase x (List.mem_append.mpr (Or.inl hx)) hs1
      refine ⟨?_, ?_, ?_⟩
      · show Min.min s.min t.min = x.mean
        rw [hmin2, min_eq_left hs.minBound.2, hsg.1]
      · show Max.max s.max t.max = x.mean
        rw [hmax2, max_eq_left (by linarith [hs.maxBound.1]), hsg.2.1]
      · show s.sum + t.sum = x.mean
        rw [hsum2, hsg.2.2]
        ring
    · obtain ⟨he1, _, hmin1, hmax1, hsum1⟩ := hs.emptyCase hs0
      have hx' : x ∈ s.centroids ++ t.centroids := hx
      rw [he1, List.nil_append] at hx'
      have htg := ht.singleCase x (List.mem_append.mpr (Or.inl hx')) ht1
      refine ⟨?_, ?_, ?_⟩
      · show Min.min s.min t.min = x.mean
        rw [hmin1, min_eq_right ht.minBound.2, htg.1]
      · show Max.max s.max t.max = x.mean
        rw [hmax1, max_eq_right (by linarith [ht.maxBound.1]), htg.2.1]
      · show s.sum + t.sum = x.mean
        rw [hsum1, htg.2.2]
        ring

/-- `Merge` preserves the invariant. -/
theorem WF_mergeD {s t : TDigest} (hs : WF s) (ht : WF t) : WF (s.mergeD grpcFits t) := by
  unfold TDigest.mergeD
  rw [if_neg hs.cpos.ne']
  dsimp only
  exact WFx_fold _ _ (WFx_mergeD_start hs ht)

/-- Every reachable digest satisfies the invariant. -/
theorem TDReachable_WF {s : TDigest} (h : TDReachable s) : WF s := by
  induction h with
  | init c hc => exact WF_emptyTD c hc
  | add v cnt _ hcnt hv ih => exact WF_add ih v cnt hcnt hv
  | mergeD _ _ ih1 ih2 => exact WF_mergeD ih1 ih2
  | domerge _ ih => exact (WFx_doMerge ih).1

/-- `DoMerge` does not change the compression. -/
theorem doMerge_compression (F : FitsFam) (s : TDigest) :
    (s.doMerge F).compression = s.compression := by
  rw [TDigest.doMerge]
  by_cases h0 : s.unmerged = 0
  · rw [if_pos h0]
  · rw [if_neg h0]
    cases hs : sortCentroids s.centroids with
    | nil => rfl
    | cons a b => rfl

/-- A positive-count centroid list is at least as long as its count sum. -/
theorem length_le_sumCounts {l : List CentroidPod} (h : ∀ x ∈ l, 1 ≤ x.count) :
    (l.length : ℤ) ≤ sumCounts l := by
  induction l with
  | nil => simp [sumCounts]
  | cons a rest ih =>
    have h1 := h a (List.mem_cons_self _ _)
    have h2 := ih fun y hy => h y (List.mem_cons_of_mem _ hy)
    simp only [sumCounts, List.map_cons, List.sum_cons, List.length_cons] at h2 ⊢
    push_cast
    omega

/-- C2: for every reachable digest (built with compression 0 < c ≤ 10^6 via
the constructor and Add/Merge calls), immediately after any operation that
forces a merge (Cdf, Quantile, ToString, or a batch-triggered DoMerge), the
number of stored centroids is at most 2 * ceil(compression). -/
theorem C2_bounded_centroids (s : TDigest) (h : TDReachable s) :
    ((s.doMerge grpcFits).centroids.length : ℤ) ≤ 2 * ⌈s.compression⌉ ∧
    (∀ v, (((s.cdfS grpcFits v).2).centroids.length : ℤ) ≤ 2 * ⌈s.compression⌉) ∧
    (∀ q, (((s.quantileS grpcFits q).2).centroids.length : ℤ) ≤ 2 * ⌈s.compression⌉) ∧
    (((s.toStringS grpcFits).2).centroids.length : ℤ) ≤ 2 * ⌈s.compression⌉ := by
  have hWF := TDReachable_WF h
  have hdm := WFx_doMerge hWF
  have hbound : ((s.doMerge grpcFits).centroids.length : ℤ) ≤ 2 * ⌈s.compression⌉ := by
    have hb := hdm.1.mergedBound hdm.2
    rwa [doMerge_compression] at hb
  have hceil : (1 : ℤ) ≤ ⌈s.compression⌉ := Int.ceil_pos.mpr hWF.cpos
  refine ⟨hbound, fun v => hbound, fun q => hbound, ?_⟩
  unfold TDigest.toStringS
  by_cases hcl : s.count ≤ 1
  · rw [if_pos hcl]
    have hsmall : ((s.centroids.length : ℤ)) ≤ 2 * ⌈s.compression⌉ := by
      have h1 := length_le_sumCounts hWF.countsPos'
      have h2 := hWF.countSum'
      omega
    by_cases hc0 : s.count = 0
    · rw [if_pos hc0]
      exact hsmall
    · rw [if_neg hc0]
      exact hsmall
  · rw [if_neg hcl]
    exact hbound

/-- Witness for C2: a concrete single-sample digest of compression 1. -/
theorem C2_bounded_centroids_witness :
    TDReachable ((emptyTD 1).add grpcFits 5 1) ∧
    ((((emptyTD 1).add grpcFits 5 1).doMerge grpcFits).centroids.length : ℤ) ≤
      2 * ⌈((emptyTD 1).add grpcFits 5 1).compression⌉ := by
  have hre : TDReachable ((emptyTD 1).add grpcFits 5 1) :=
    TDReachable.add 5 1 (TDReachable.init 1 (by norm_num)) (by norm_num)
      (by rw [abs_of_nonneg (by norm_num)]; norm_num [dblMax])
  exact ⟨hre, (C2_bounded_centroids _ hre).1⟩

/-! ### Quantile monotonicity -/

/-- The interpolated value is at least the left anchor value. -/
theorem interp_ge {pv tv pc tc qc : ℚ} (hpt : pc < tc) (hpv : pv ≤ tv)
    (h1 : pc ≤ qc) (h2 : qc ≤ tc) : pv ≤ LinearInterpolate pv tv (tc - qc) (qc - pc) := by
  unfold LinearInterpolate
  rw [show tc - qc + (qc - pc) = tc - pc by ring, le_div_iff (by linarith)]
  nlinarith [mul_nonneg (sub_nonneg.mpr hpv) (sub_nonneg.mpr h1)]

/-- The interpolated value is at most the right anchor value. -/
theorem interp_le_tv {pv tv pc tc qc : ℚ} (hpt : pc < tc) (hpv : pv ≤ tv)
    (h1 : pc ≤ qc) (h2 : qc ≤ tc) : LinearInterpolate pv tv (tc - qc) (qc - pc) ≤ tv := by
  unfold LinearInterpolate
  rw [show tc - qc + (qc - pc) = tc - pc by ring, div_le_iff (by linarith)]
  nlinarith [mul_nonneg (sub_nonneg.mpr hpv) (sub_nonneg.mpr h2)]

/-- The interpolated value is monotone in the quantile count. -/
theorem interp_mono {pv tv pc tc qc1 qc2 : ℚ} (hpt : pc < tc) (hpv : pv ≤ tv)
    (h12 : qc1 ≤ qc2) :
    LinearInterpolate pv tv (tc - qc1) (qc1 - pc) ≤
      LinearInterpolate pv tv (tc - qc2) (qc2 - pc) := by
  unfold LinearInterpolate
  rw [show tc - qc1 + (qc1 - pc) = tc - pc by ring,
    show tc - qc2 + (qc2 - pc) = tc - pc by ring,
    div_le_div_iff (by linarith) (by linarith)]
  nlinarith [mul_nonneg (mul_nonneg (sub_nonneg.mpr hpv) (sub_nonneg.mpr h12))
    (le_of_lt (sub_pos.mpr hpt))]

/-- Unfolding of the Quantile loop with an exhausted list. -/
theorem quantileGo_nil (qc : ℚ) (total : ℤ) (mx : ℚ) (prev cur : ℚ × ℚ) :
    quantileGo qc total mx prev cur [] =
      LinearInterpolate prev.2 cur.2 (cur.1 - qc) (qc - prev.1) := by
  rw [quantileGo.eq_def]

/-- Unfolding of the Quantile loop at a centroid. -/
theorem quantileGo_cons (qc : ℚ) (total : ℤ) (mx : ℚ) (prev cur : ℚ × ℚ)
    (c : CentroidPod) (rest : List CentroidPod) :
    quantileGo qc total mx prev cur (c :: rest) =
      if qc < cur.1 then LinearInterpolate prev.2 cur.2 (cur.1 - qc) (qc - prev.1)
      else
        quantileGo qc total mx cur
          (match rest with
           | [] => (((total : ℤ) : ℚ), mx)
           | c2 :: _ => (cur.1 + ((c.count + c2.count : ℤ) : ℚ) / 2, c2.mean)) rest := by
  rw [quantileGo.eq_def]

/-- Advancing the anchors past the last centroid preserves the invariant. -/
theorem QInv_step_nil {total : ℤ} {mx : ℚ} {prev cur : ℚ × ℚ} {c : CentroidPod}
    (h : QInv total mx prev cur [c]) : QInv total mx cur (((total : ℤ) : ℚ), mx) [] := by
  have hcnt := h.cnt
  simp only [restWeight, sumCounts, List.map_nil, List.sum_nil, mul_zero, add_zero] at hcnt
  have hc1 : (1 : ℚ) ≤ (c.count : ℚ) := by
    exact_mod_cast h.counts c (List.mem_singleton.mpr rfl)
  push_cast at hcnt
  refine ⟨?_, h.curMx, ?_, ?_, ?_, ?_, ?_, le_refl _⟩
  · show cur.1 < ((total : ℤ) : ℚ)
    linarith
  · show 2 * ((total : ℤ) : ℚ) = 2 * ((total : ℤ) : ℚ) - ((restWeight [] : ℤ) : ℚ)
    simp [restWeight]
  · intro x hx
    cases hx
  · simp
  · intro x hx
    cases hx
  · intro x hx
    cases hx

/-- Advancing the anchors to the next centroid preserves the invariant. -/
theorem QInv_step_cons {total : ℤ} {mx : ℚ} {prev cur : ℚ × ℚ} {c c2 : CentroidPod}
    {rest2 : List CentroidPod} (h : QInv total mx prev cur (c :: c2 :: rest2)) :
    QInv total mx cur (cur.1 + ((c.count + c2.count : ℤ) : ℚ) / 2, c2.mean) (c2 :: rest2) := by
  have hcnt := h.cnt
  have hc1 : (1 : ℚ) ≤ (c.count : ℚ) := by
    exact_mod_cast h.counts c (List.mem_cons_self _ _)
  have hc2 : (1 : ℚ) ≤ (c2.count : ℚ) := by
    exact_mod_cast h.counts c2 (List.mem_cons_of_mem _ (List.mem_cons_self _ _))
  refine ⟨?_, h.meansLe c2 (List.mem_cons_of_mem _ (List.mem_cons_self _ _)), ?_, ?_,
    h.sorted.of_cons, ?_, ?_, h.meansMx c2 (List.mem_cons_of_mem _ (List.mem_cons_self _ _))⟩
  · show cur.1 < cur.1 + ((c.count + c2.count : ℤ) : ℚ) / 2
    push_cast
    linarith
  · show 2 * (cur.1 + ((c.count + c2.count : ℤ) : ℚ) / 2) =
      2 * ((total : ℤ) : ℚ) - ((restWeight (c2 :: rest2) : ℤ) : ℚ)
    simp only [restWeight, sumCounts, List.map_cons, List.sum_cons] at hcnt ⊢
    push_cast at hcnt ⊢
    linarith
  · exact fun x hx => h.counts x (List.mem_cons_of_mem _ hx)
  · exact fun x hx => sorted_headI_le h.sorted.of_cons x hx
  · exact fun x hx => h.meansMx x (List.mem_cons_of_mem _ hx)

/-- The Quantile loop returns at least the left anchor value. -/
theorem quantileGo_ge (qc : ℚ) (total : ℤ) (mx : ℚ) :
    ∀ (l : List CentroidPod) (prev cur : ℚ × ℚ), QInv total mx prev cur l →
      prev.1 ≤ qc → qc ≤ (total : ℚ) → prev.2 ≤ quantileGo qc total mx prev cur l := by
  intro l
  induction l with
  | nil =>
    intro prev cur h hpc hqt
    rw [quantileGo_nil]
    have htc : cur.1 = ((total : ℤ) : ℚ) := by
      have hcnt := h.cnt
      simp only [restWeight] at hcnt
      push_cast at hcnt
      linarith
    exact interp_ge h.pt h.pv hpc (by rw [htc]; exact hqt)
  | cons c rest ih =>
    intro prev cur h hpc hqt
    rw [quantileGo_cons]
    by_cases hstop : qc < cur.1
    · rw [if_pos hstop]
      exact interp_ge h.pt h.pv hpc (le_of_lt hstop)
    · rw [if_neg hstop]
      have hcont : cur.1 ≤ qc := le_of_not_lt hstop
      cases rest with
      | nil => exact le_trans h.pv (ih cur _ (QInv_step_nil h) hcont hqt)
      | cons c2 rest2 => exact le_trans h.pv (ih cur _ (QInv_step_cons h) hcont hqt)

/-- The Quantile loop is monotone in the quantile count. -/
theorem quantileGo_mono (total : ℤ) (mx : ℚ) {qc1 qc2 : ℚ} (h12 : qc1 ≤ qc2)
    (hq2 : qc2 ≤ (total : ℚ)) :
    ∀ (l : List CentroidPod) (prev cur : ℚ × ℚ), QInv total mx prev cur l →
      prev.1 ≤ qc1 →
      quantileGo qc1 total mx prev cur l ≤ quantileGo qc2 total mx prev cur l := by
  intro l
  induction l with
  | nil =>
    intro prev cur h hpc
    rw [quantileGo_nil, quantileGo_nil]
    exact interp_mono h.pt h.pv h12
  | cons c rest ih =>
    intro prev cur h hpc
    rw [quantileGo_cons, quantileGo_cons]
    by_cases h2 : qc2 < cur.1
    · rw [if_pos (lt_of_le_of_lt h12 h2), if_pos h2]
      exact interp_mono h.pt h.pv h12
    · rw [if_neg h2]
      have hcont2 : cur.1 ≤ qc2 := le_of_not_lt h2
      by_cases h1 : qc1 < cur.1
      · rw [if_pos h1]
        have hle : LinearInterpolate prev.2 cur.2 (cur.1 - qc1) (qc1 - prev.1) ≤ cur.2 :=
          interp_le_tv h.pt h.pv hpc (le_of_lt h1)
        cases rest with
        | nil =>
          exact le_trans hle (quantileGo_ge qc2 total mx [] cur _ (QInv_step_nil h) hcont2 hq2)
        | cons c2 rest2 =>
          exact le_trans hle
            (quantileGo_ge qc2 total mx _ cur _ (QInv_step_cons h) hcont2 hq2)
      · rw [if_neg h1]
        have hcont1 : cur.1 ≤ qc1 := le_of_not_lt h1
        cases rest with
        | nil => exact ih cur _ (QInv_step_nil h) hcont1
        | cons c2 rest2 => exact ih cur _ (QInv_step_cons h) hcont1

/-- `DoMerge` does not change the count. -/
theorem doMerge_count (F : FitsFam) (s : TDigest) : (s.doMerge F).count = s.count := by
  rw [TDigest.doMerge]
  by_cases h0 : s.unmerged = 0
  · rw [if_pos h0]
  · rw [if_neg h0]
    cases hs : sortCentroids s.centroids with
    | nil => rfl
    | cons a b => rfl

/-- `DoMerge` on a quiescent (fully merged) digest is the identity. -/
theorem doMerge_idem0 (F : FitsFam) (s : TDigest) (h : s.unmerged = 0) :
    s.doMerge F = s := by
  rw [TDigest.doMerge, if_pos h]

/-- `AddUnmergedCentroid` does not change the count. -/
theorem addUnmerged_count (F : FitsFam) (s : TDigest) (c : CentroidPod) :
    (s.addUnmergedCentroid F c).count = s.count := by
  show (if s.unmerged + 1 = s.batchSize then
      ({ s with centroids := s.centroids ++ [c], unmerged := s.unmerged + 1 } :
        TDigest).doMerge F
    else { s with centroids := s.centroids ++ [c], unmerged := s.unmerged + 1 }).count
      = s.count
  by_cases hb : s.unmerged + 1 = s.batchSize
  · rw [if_pos hb, doMerge_count]
  · rw [if_neg hb]

/-- `Add` with a nonzero count adds the count. -/
theorem add_count_pos (F : FitsFam) (s : TDigest) (v : ℚ) (cnt : ℤ) (hc : ¬ cnt = 0) :
    (s.add F v cnt).count = s.count + cnt := by
  rw [TDigest.add, if_neg hc, addUnmerged_count]
  rfl

/-- `Quantile` on an already-merged nonempty state is defined and monotone in
the quantile argument. -/
theorem quantileMerged_mono {s : TDigest} (hWF : WF s) (hm : s.unmerged = 0)
    (hne : s.count ≠ 0) {q1 q2 : ℚ} (h0 : 0 ≤ q1) (h12 : q1 ≤ q2) (h1 : q2 ≤ 1) :
    ∃ v1 v2, s.quantileMerged q1 = some v1 ∧ s.quantileMerged q2 = some v2 ∧ v1 ≤ v2 := by
  have hcpos : 0 < s.count := lt_of_le_of_ne hWF.count_nonneg (Ne.symm hne)
  cases hc : s.centroids with
  | nil =>
    exfalso
    apply hne
    rw [hWF.countSum', hc]
    rfl
  | cons c0 rest =>
    have hlen := hWF.lenEq
    rw [hc, hm] at hlen
    have hmne : s.merged ≠ 0 := by
      rw [add_zero] at hlen
      rw [hlen]
      simp only [List.length_cons]
      push_cast
      omega
    have hmemc0 : c0 ∈ s.centroids := by
      rw [hc]
      exact List.mem_cons_self _ _
    have hsorted : (c0 :: rest).Sorted meanLE := by
      have := hWF.mergedSorted hm
      rwa [hc] at this
    unfold TDigest.quantileMerged
    rw [hc]
    dsimp only
    rw [if_neg hmne, if_neg hmne]
    by_cases hone : s.merged = 1
    · rw [if_pos hone, if_pos hone]
      exact ⟨c0.mean, c0.mean, rfl, rfl, le_refl _⟩
    · rw [if_neg hone, if_neg hone]
      have hcnt0 : (1 : ℚ) ≤ ((c0.count : ℤ) : ℚ) := by
        exact_mod_cast hWF.countsPos' c0 hmemc0
      have hinv : QInv s.count s.max (0, s.min) (((c0.count : ℤ) : ℚ) / 2, c0.mean)
          (c0 :: rest) := by
        have hcs := hWF.countSum'
        rw [hc] at hcs
        refine ⟨?_, ?_, ?_, ?_, hsorted, ?_, ?_, ?_⟩
        · show (0 : ℚ) < ((c0.count : ℤ) : ℚ) / 2
          linarith
        · show s.min ≤ c0.mean
          exact hWF.minLe c0 (List.mem_append.mpr (Or.inl hmemc0))
        · show 2 * (((c0.count : ℤ) : ℚ) / 2) =
            2 * ((s.count : ℤ) : ℚ) - ((restWeight (c0 :: rest) : ℤ) : ℚ)
          rw [hcs]
          simp only [restWeight, sumCounts, List.map_cons, List.sum_cons]
          push_cast
          ring
        · intro x hx
          apply hWF.countsPos' x
          rw [hc]
          exact hx
        · exact fun x hx => sorted_headI_le hsorted x hx
        · intro x hx
          apply hWF.maxGe x
          refine List.mem_append.mpr (Or.inl ?_)
          rw [hc]
          exact hx
        · exact hWF.maxGe c0 (List.mem_append.mpr (Or.inl hmemc0))
      have hq12 : q1 * ((s.count : ℤ) : ℚ) ≤ q2 * ((s.count : ℤ) : ℚ) := by
        apply mul_le_mul_of_nonneg_right h12
        exact_mod_cast le_of_lt hcpos
      have hq2t : q2 * ((s.count : ℤ) : ℚ) ≤ ((s.count : ℤ) : ℚ) := by
        apply mul_le_of_le_one_left _ h1
        exact_mod_cast le_of_lt hcpos
      have hpc0 : ((0 : ℚ), s.min).1 ≤ q1 * ((s.count : ℤ) : ℚ) := by
        show (0 : ℚ) ≤ q1 * ((s.count : ℤ) : ℚ)
        apply mul_nonneg h0
        exact_mod_cast le_of_lt hcpos
      exact ⟨_, _, rfl, rfl,
        quantileGo_mono s.count s.max hq12 hq2t (c0 :: rest) (0, s.min)
          (((c0.count : ℤ) : ℚ) / 2, c0.mean) hinv hpc0⟩

/-- C4: for every reachable non-empty digest and 0 <= q1 <= q2 <= 1, the two
sequential `Quantile` calls (the second on the state mutated by the first's
`DoMerge`) both return values, and `Quantile(q1) <= Quantile(q2)`. -/
theorem C4_quantile_monotone (s : TDigest) (h : TDReachable s) (hne : s.count ≠ 0)
    (q1 q2 : ℚ) (h0 : 0 ≤ q1) (h12 : q1 ≤ q2) (h1 : q2 ≤ 1) :
    ∃ v1 v2, (s.quantileS grpcFits q1).1 = some v1 ∧
      (((s.quantileS grpcFits q1).2).quantileS grpcFits q2).1 = some v2 ∧ v1 ≤ v2 := by
  have hWF := TDReachable_WF h
  have hdm := WFx_doMerge hWF
  have hne1 : (s.doMerge grpcFits).count ≠ 0 := by
    rw [doMerge_count]
    exact hne
  obtain ⟨v1, v2, e1, e2, hv⟩ := quantileMerged_mono hdm.1 hdm.2 hne1 h0 h12 h1
  refine ⟨v1, v2, ?_, ?_, hv⟩
  · show (s.doMerge grpcFits).quantileMerged q1 = some v1
    exact e1
  · show ((s.doMerge grpcFits).doMerge grpcFits).quantileMerged q2 = some v2
    rw [doMerge_idem0 grpcFits _ hdm.2]
    exact e2

/-- Witness for C4: the single-sample digest of compression 1 at q1 = 0 and
q2 = 1. -/
theorem C4_quantile_monotone_witness :
    (TDReachable ((emptyTD 1).add grpcFits 5 1) ∧
      ((emptyTD 1).add grpcFits 5 1).count ≠ 0 ∧
      (0 : ℚ) ≤ 0 ∧ (0 : ℚ) ≤ 1 ∧ (1 : ℚ) ≤ 1) ∧
    ∃ v1 v2, (((emptyTD 1).add grpcFits 5 1).quantileS grpcFits 0).1 = some v1 ∧
      ((((emptyTD 1).add grpcFits 5 1).quantileS grpcFits 0).2.quantileS grpcFits 1).1 =
        some v2 ∧ v1 ≤ v2 := by
  have hre : TDReachable ((emptyTD 1).add grpcFits 5 1) :=
    TDReachable.add 5 1 (TDReachable.init 1 (by norm_num)) (by norm_num)
      (by rw [abs_of_nonneg (by norm_num)]; norm_num [dblMax])
  have hcnt : ((emptyTD 1).add grpcFits 5 1).count ≠ 0 := by
    rw [add_count_pos grpcFits _ 5 1 (by norm_num)]
    show (0 : ℤ) + 1 ≠ 0
    norm_num
  exact ⟨⟨hre, hcnt, le_refl 0, by norm_num, le_refl 1⟩,
    C4_quantile_monotone _ hre hcnt 0 1 (le_refl 0) (by norm_num) (le_refl 1)⟩

/-! ### Merge-decision certificates and the round trip -/

/-- A failed merge decision stays failed as the cumulative count grows
(`q_limit` depends only on the boundary). -/
theorem grpcFits_mono_false (c : ℚ) (total b : ℤ) {m m' : ℤ}
    (hf : grpcFits c total b m = false) (hmm : m ≤ m') :
    grpcFits c total b m' = false := by
  rw [grpcFits_false_iff] at hf ⊢
  intro hle
  exact hf (le_trans (by exact_mod_cast hmm) hle)

/-- The merge decision only depends on the value of the cumulative count. -/
theorem grpcFits_comm (c : ℚ) (total b x y : ℤ) :
    grpcFits c total b (x + y) = grpcFits c total b (y + x) := by
  rw [Int.add_comm]

/-- The greedy merge certifies its own output: every placed centroid failed
the merge decision at its placement boundary, uniformly in the input split
(the boundary of the growing centroid is the output prefix-count sum,
maintained as `mc = b + last.count`). -/
theorem mergeRecOut_certs (fits : FitsFun)
    (hmono : ∀ b m m', fits b m = false → m ≤ m' → fits b m' = false)
    (hcomm : ∀ b x y, fits b (x + y) = fits b (y + x)) :
    ∀ (l : List CentroidPod) (b mc : ℤ) (last : CentroidPod),
      (∀ x ∈ l, 0 ≤ x.count) → mc = b + last.count →
      certs fits b (b + (mergeRecOut fits b mc last l).headI.count)
        (mergeRecOut fits b mc last l).tail := by
  intro l
  induction l with
  | nil =>
    intro b mc last hcnt hinv
    rw [mergeRecOut]
    trivial
  | cons c rest ih =>
    intro b mc last hcnt hinv
    rw [mergeRecOut]
    cases hF : fits b (c.count + mc) with
    | true =>
      rw [if_pos rfl]
      refine ih b (mc + c.count) (welford last c)
        (fun x hx => hcnt x (List.mem_cons_of_mem _ hx)) ?_
      show mc + c.count = b + (last.count + c.count)
      omega
    | false =>
      rw [if_neg Bool.false_ne_true]
      cases ho : mergeRecOut fits mc (mc + c.count) c rest with
      | nil => exact absurd ho (mergeRecOut_ne_nil fits rest mc (mc + c.count) c)
      | cons h1 t1 =>
        have hhead : c.count ≤ h1.count := by
          have := mergeRecOut_head_count_ge fits rest mc (mc + c.count) c
            (fun x hx => hcnt x (List.mem_cons_of_mem _ hx))
          rwa [ho] at this
        have hih := ih mc (mc + c.count) c
          (fun x hx => hcnt x (List.mem_cons_of_mem _ hx)) rfl
        rw [ho] at hih
        show fits b (b + last.count + h1.count) = false ∧
          certs fits (b + last.count) (b + last.count + h1.count) t1
        constructor
        · apply hmono b (b + last.count + c.count) _ ?_ (by omega)
          rw [show b + last.count + c.count = c.count + (b + last.count) from by ring,
            ← hinv]
          exact hF
        · have hmceq : b + last.count = mc := hinv.symm
          rw [hmceq]
          exact hih

/-- Re-merging a certified list places every centroid separately. -/
theorem mergeRecOut_of_certs (fits : FitsFun)
    (hcomm : ∀ b x y, fits b (x + y) = fits b (y + x)) :
    ∀ (l : List CentroidPod) (b mc : ℤ) (last : CentroidPod),
      certs fits b mc l → mergeRecOut fits b mc last l = last :: l := by
  intro l
  induction l with
  | nil =>
    intro b mc last _
    rw [mergeRecOut]
  | cons c rest ih =>
    intro b mc last h
    obtain ⟨h1, h2⟩ := h
    rw [mergeRecOut]
    have hd : fits b (c.count + mc) = false := by
      rw [hcomm]
      exact h1
    rw [hd, if_neg Bool.false_ne_true, ih mc (mc + c.count) c h2]

/-- `DoMerge` establishes (or preserves) the merged-state history
invariant. -/
theorem MergedInv_doMerge {s : TDigest} (hcnt : ∀ x ∈ s.centroids, 1 ≤ x.count)
    (hM : MergedInv s) : MergedInv (s.doMerge grpcFits) := by
  by_cases h0 : s.unmerged = 0
  · rw [doMerge_idem0 grpcFits s h0]
    exact hM
  · cases hsort : sortCentroids s.centroids with
    | nil =>
      rw [TDigest.doMerge, if_neg h0, hsort]
      intro habs
      exact absurd habs h0
    | cons c0 rest =>
      rw [doMerge_eq grpcFits s c0 rest h0 hsort]
      intro _
      have hperm := sortCentroids_perm s.centroids
      rw [hsort] at hperm
      have hcnt0 : ∀ x ∈ c0 :: rest, 0 ≤ x.count := by
        intro x hx
        have := hcnt x (hperm.mem_iff.mp hx)
        omega
      constructor
      · have hc := mergeRecOut_certs (grpcFits s.compression s.count)
          (fun b m m' => grpcFits_mono_false s.compression s.count b)
          (fun b x y => grpcFits_comm s.compression s.count b x y) rest 0 c0.count c0
          (fun x hx => hcnt0 x (List.mem_cons_of_mem _ hx)) (by omega)
        rw [zero_add] at hc
        exact hc
      · rfl

/-- `AddUnmergedCentroid` leaves the digest either unmerged or freshly
merged, so the history invariant holds unconditionally afterwards. -/
theorem addUnmerged_MergedInv {s : TDigest} (c : CentroidPod) (hu : 0 ≤ s.unmerged)
    (hcnt : ∀ x ∈ s.centroids ++ [c], 1 ≤ x.count) :
    MergedInv (s.addUnmergedCentroid grpcFits c) := by
  have hs1 : MergedInv
      { s with centroids := s.centroids ++ [c], unmerged := s.unmerged + 1 } := by
    intro habs
    exact absurd (show s.unmerged + 1 = 0 from habs) (by omega)
  show MergedInv (if _ = _ then _ else _)
  by_cases hb : s.unmerged + 1 = s.batchSize
  · rw [if_pos hb]
    exact MergedInv_doMerge hcnt hs1
  · rw [if_neg hb]
    exact hs1

/-- `Add` preserves the merged-state history invariant. -/
theorem add_MergedInv {s : TDigest} (v : ℚ) (cnt : ℤ) (hu : 0 ≤ s.unmerged)
    (hcnt : ∀ x ∈ s.centroids, 1 ≤ x.count) (hc0 : 0 ≤ cnt) (hM : MergedInv s) :
    MergedInv (s.add grpcFits v cnt) := by
  unfold TDigest.add
  by_cases hz : cnt = 0
  · rw [if_pos hz]
    exact hM
  · rw [if_neg hz]
    refine addUnmerged_MergedInv ⟨v, cnt⟩ (show (0 : ℤ) ≤ s.unmerged from hu) ?_
    intro x hx
    rcases List.mem_append.mp hx with hx1 | hx2
    · exact hcnt x hx1
    · rcases List.mem_singleton.mp hx2 with rfl
      show (1 : ℤ) ≤ cnt
      omega

/-- The transfer loop of `Merge` preserves the merged-state history
invariant. -/
theorem MergedInv_fold :
    ∀ (pend : List CentroidPod) (s : TDigest), WFx s pend →
      (pend = [] → MergedInv s) →
      MergedInv (pend.foldl (fun t c => t.addUnmergedCentroid grpcFits c) s) := by
  intro pend
  induction pend with
  | nil => intro s _ hM; exact hM rfl
  | cons c rest ih =>
    intro s h _
    rw [List.foldl_cons]
    refine ih _ (WFx_addUnmerged h) fun _ => ?_
    refine addUnmerged_MergedInv c h.unmergedNonneg fun x hx => h.countsPos x ?_
    simp only [List.mem_append, List.mem_singleton, List.mem_cons] at hx ⊢
    tauto

/-- Every reachable digest satisfies the merged-state history invariant. -/
theorem MergedInv_reachable {s : TDigest} (h : TDReachable s) : MergedInv s := by
  induction h with
  | init c hc =>
    intro _
    exact ⟨True.intro, rfl⟩
  | add v cnt hre hcnt hv ih =>
    have hWF := TDReachable_WF hre
    exact add_MergedInv v cnt hWF.unmergedNonneg hWF.countsPos' hcnt ih
  | mergeD hre1 hre2 ih1 ih2 =>
    rename_i s1 t1
    have hs := TDReachable_WF hre1
    have ht := TDReachable_WF hre2
    unfold TDigest.mergeD
    rw [if_neg hs.cpos.ne']
    dsimp only
    refine MergedInv_fold _ _ (WFx_mergeD_start hs ht) fun hnil => ?_
    intro h0
    have h0s : s1.unmerged = 0 := h0
    have htc : t1.count = 0 := by
      rw [ht.countSum', hnil]
      rfl
    have hts : t1.sum = 0 := (ht.emptyCase htc).2.2.2.2
    obtain ⟨hcert, hsum⟩ := ih1 h0s
    constructor
    · show certs (grpcFits s1.compression (s1.count + t1.count)) 0
        s1.centroids.headI.count s1.centroids.tail
      rw [htc, add_zero]
      exact hcert
    · show s1.sum + t1.sum = sumMeanCounts s1.centroids
      rw [hts, add_zero]
      exact hsum
  | domerge hre ih =>
    exact MergedInv_doMerge (TDReachable_WF hre).countsPos' ih

/-- A compression already in range is unchanged by bounding. -/
theorem BoundedCompression_self {c : ℚ} (h : c ≤ kMaxCompression) :
    BoundedCompression c = c :=
  min_eq_right h

/-- `ToString` of an empty digest. -/
theorem toStringS_eval0 (F : FitsFam) {s : TDigest} (h : s.count = 0) :
    s.toStringS F = ([Tok.sc (sixDigits s.compression) false, Tok.sc 0 true,
      Tok.sc 0 true, Tok.sc 0 true, Tok.sc 0 true], s) := by
  rw [TDigest.toStringS, if_pos (show s.count ≤ 1 by omega), if_pos h]

/-- `ToString` of a single-sample digest. -/
theorem toStringS_eval1 (F : FitsFam) {s : TDigest} (h : s.count = 1) :
    s.toStringS F =
      ([Tok.sc (sixDigits s.compression) false, Tok.sc s.centroids.headI.mean false],
       s) := by
  rw [TDigest.toStringS, if_pos (show s.count ≤ 1 by omega), if_neg (by omega)]

/-- `ToString` of a general digest: merge, then serialize the merged state. -/
theorem toStringS_eval2 (F : FitsFam) {s : TDigest} (h : ¬ s.count ≤ 1) :
    s.toStringS F =
      ([Tok.sc (sixDigits (s.doMerge F).compression) false, Tok.sc (s.doMerge F).min false,
        Tok.sc (s.doMerge F).max false, Tok.sc (s.doMerge F).sum false,
        Tok.sc (((s.doMerge F).count : ℤ) : ℚ) true] ++
          (s.doMerge F).centroids.map fun c => Tok.pr c.mean c.count,
       s.doMerge F) := by
  rw [TDigest.toStringS, if_neg h]

/-- `FromString` of a well-formed declared-empty serialization. -/
theorem fromTokens_empty (F : FitsFam) (sAny : TDigest) (c : ℚ) (hc : ¬ c < 0) :
    TDigest.fromTokens F sAny
        [Tok.sc c false, Tok.sc 0 true, Tok.sc 0 true, Tok.sc 0 true, Tok.sc 0 true] =
      Except.ok (emptyTD c) := by
  rw [TDigest.fromTokens]
  dsimp only [Tok.atod, Tok.atoi]
  rw [if_neg hc]
  rw [if_pos (show (true = true) ∧ (0 : ℚ).den = 1 from ⟨rfl, by norm_num⟩)]
  dsimp only
  rw [if_pos rfl, if_neg (by norm_num)]

/-- `FromString` of a single-sample serialization. -/
theorem fromTokens_single (F : FitsFam) (sAny : TDigest) (c v : ℚ) (hc : ¬ c < 0) :
    TDigest.fromTokens F sAny [Tok.sc c false, Tok.sc v false] =
      Except.ok ((emptyTD c).add F v 1) := by
  rw [TDigest.fromTokens]
  dsimp only [Tok.atod]
  rw [if_neg hc]

/-- `FromString` of a general serialization with centroid pairs: parse the
header, re-add every centroid, merge, and overwrite min and max from the
header. -/
theorem fromTokens_pairs (F : FitsFam) (sAny : TDigest) (c mn mx sm : ℚ) (cnt : ℤ)
    (p0 : CentroidPod) (P : List CentroidPod) (hc : ¬ c < 0) (s' : TDigest)
    (hparse : parseCentroids F (emptyTD c)
      (Tok.pr p0.mean p0.count :: P.map fun p => Tok.pr p.mean p.count) = some s')
    (hne : ¬ (s'.doMerge F).centroids = [])
    (hcount : cnt = (s'.doMerge F).count) :
    TDigest.fromTokens F sAny
        ([Tok.sc c false, Tok.sc mn false, Tok.sc mx false, Tok.sc sm false,
          Tok.sc ((cnt : ℤ) : ℚ) true] ++
          (p0 :: P).map fun p => Tok.pr p.mean p.count) =
      Except.ok { s'.doMerge F with min := mn, max := mx } := by
  rw [List.map_cons]
  simp only [List.cons_append, List.nil_append]
  rw [TDigest.fromTokens]
  dsimp only [Tok.atod, Tok.atoi]
  rw [if_neg hc]
  rw [if_pos (show (true = true) ∧ ((cnt : ℤ) : ℚ).den = 1 from ⟨rfl, Rat.den_intCast cnt⟩)]
  dsimp only
  rw [if_neg (show ¬ (Tok.pr p0.mean p0.count :: P.map fun p => Tok.pr p.mean p.count) = []
    from by simp)]
  rw [hparse]
  dsimp only
  rw [if_neg hne, Rat.num_intCast]
  rw [if_neg (show ¬ cnt ≠ (s'.doMerge F).count from not_not_intro hcount)]

/-- Feeding a serialized centroid list through `FromString`'s parsing loop
grows the buffer by exactly those centroids (the batch never fills). -/
theorem parseCentroids_run (F : FitsFam) :
    ∀ (L : List CentroidPod) (s : TDigest),
      (∀ x ∈ L, 1 ≤ x.count) → 0 ≤ s.unmerged →
      s.unmerged + (L.length : ℤ) < s.batchSize →
      ∃ s' : TDigest,
        parseCentroids F s (L.map fun p => Tok.pr p.mean p.count) = some s' ∧
        s'.centroids = s.centroids ++ L ∧
        s'.count = s.count + sumCounts L ∧
        s'.compression = s.compression ∧
        s'.batchSize = s.batchSize ∧
        s'.unmerged = s.unmerged + (L.length : ℤ) := by
  intro L
  induction L with
  | nil =>
    intro s _ _ _
    exact ⟨s, rfl, by simp, by simp [sumCounts], rfl, rfl, by simp⟩
  | cons p P ih =>
    intro s hcnt hu hb
    have hp1 : (1 : ℤ) ≤ p.count := hcnt p (List.mem_cons_self _ _)
    have hlen : ((p :: P).length : ℤ) = (P.length : ℤ) + 1 := by
      push_cast [List.length_cons]
      ring
    rw [hlen] at hb
    rw [List.map_cons, parseCentroids,
      add_eval F s p.mean p.count (by omega) (by omega)]
    have hpeta : (⟨p.mean, p.count⟩ : CentroidPod) = p := rfl
    obtain ⟨s', h1, h2, h3, h4, h5, h6⟩ :=
      ih
        { s with
          min := Min.min s.min p.mean
          max := Max.max s.max p.mean
          sum := s.sum + p.mean * (p.count : ℚ)
          count := s.count + p.count
          centroids := s.centroids ++ [⟨p.mean, p.count⟩]
          unmerged := s.unmerged + 1 }
        (fun x hx => hcnt x (List.mem_cons_of_mem _ hx))
        (show (0 : ℤ) ≤ s.unmerged + 1 by omega)
        (show s.unmerged + 1 + (P.length : ℤ) < s.batchSize by omega)
    refine ⟨s', h1, ?_, ?_, h4, h5, ?_⟩
    · rw [h2, hpeta]
      show s.centroids ++ [p] ++ P = s.centroids ++ p :: P
      rw [List.append_assoc, List.singleton_append]
    · rw [h3]
      show s.count + p.count + sumCounts P = s.count + sumCounts (p :: P)
      simp only [sumCounts, List.map_cons, List.sum_cons]
      ring
    · rw [h6]
      show s.unmerged + 1 + (P.length : ℤ) = s.unmerged + ((p :: P).length : ℤ)
      rw [hlen]
      ring

/-- The states traversed by `FromString`'s parsing loop are reachable. -/
theorem parseCentroids_reachable :
    ∀ (toks : List Tok) (s s' : TDigest), TDReachable s →
      (∀ m cnt, Tok.pr m cnt ∈ toks → 0 ≤ cnt ∧ |m| ≤ dblMax) →
      parseCentroids grpcFits s toks = some s' → TDReachable s' := by
  intro toks
  induction toks with
  | nil =>
    intro s s' hre _ hp
    rw [parseCentroids] at hp
    cases hp
    exact hre
  | cons t rest ih =>
    intro s s' hre hcond hp
    cases t with
    | sc q i =>
      rw [parseCentroids] at hp
      exact absurd hp (by simp)
    | pr m cnt =>
      rw [parseCentroids] at hp
      have hcc := hcond m cnt (List.mem_cons_self _ _)
      exact ih _ _ (TDReachable.add m cnt hre hcc.1 hcc.2)
        (fun m2 c2 hm => hcond m2 c2 (List.mem_cons_of_mem _ hm)) hp

/-- Bounding the compression is idempotent. -/
theorem BoundedCompression_idem (c : ℚ) :
    BoundedCompression (BoundedCompression c) = BoundedCompression c := by
  unfold BoundedCompression
  exact min_eq_right (min_le_left _ _)

/-- The batch size of a fresh digest. -/
theorem emptyTD_batchSize (c : ℚ) :
    (emptyTD c).batchSize = 8 * ⌈BoundedCompression c⌉ := by
  show 4 * MaxCentroids (BoundedCompression c) = 8 * ⌈BoundedCompression c⌉
  unfold MaxCentroids
  rw [BoundedCompression_idem]
  ring

/-- A mean-sorted list with pairwise distinct means is sorted in the
lexicographic centroid order. -/
theorem sorted_centLex_of_distinct {l : List CentroidPod} (hs : l.Sorted meanLE)
    (hd : l.Pairwise fun a b => a.mean ≠ b.mean) : l.Sorted centLex := by
  refine (hs.and hd).imp ?_
  intro a b hab
  exact Or.inl (lt_of_le_of_ne hab.1 hab.2)

/-- Sorting a list already sorted in the lexicographic order is the
identity. -/
theorem sortCentroids_eq_self {l : List CentroidPod} (h : l.Sorted centLex) :
    sortCentroids l = l :=
  List.Sorted.insertionSort_eq h

/-- Integers round to themselves, whatever the tie rule. -/
theorem roundEven_intCast (z : ℤ) : roundEven (z : ℚ) = z := by
  unfold roundEven
  rw [if_neg]
  · exact round_intCast z
  · rw [Int.fract_intCast]
    norm_num

/-- The decimal exponent is determined by its bracketing powers of ten. -/
theorem log10_unique (q : ℚ) (e : ℤ) (h1 : (10 : ℚ) ^ e ≤ q)
    (h2 : q < (10 : ℚ) ^ (e + 1)) : Int.log 10 q = e := by
  have hq : 0 < q := lt_of_lt_of_le (by positivity) h1
  have ha := Int.zpow_log_le_self (by norm_num : (1 : ℕ) < 10) hq
  have hb := Int.lt_zpow_succ_log_self (by norm_num : (1 : ℕ) < 10) q
  push_cast at ha hb
  by_contra hne
  rcases lt_or_gt_of_ne hne with hlt | hgt
  · have hle : Int.log 10 q + 1 ≤ e := by omega
    have := zpow_le_zpow_right₀ (by norm_num : (1 : ℚ) ≤ 10) hle
    linarith
  · have hle : e + 1 ≤ Int.log 10 q := by omega
    have := zpow_le_zpow_right₀ (by norm_num : (1 : ℚ) ≤ 10) hle
    linarith

/-- A positive value whose six-digit mantissa is already integral is a fixed
point of the six-significant-digit formatting. -/
theorem sixDigits_eq_self {q : ℚ} (e : ℤ) (h1 : (10 : ℚ) ^ e ≤ q)
    (h2 : q < (10 : ℚ) ^ (e + 1)) (z : ℤ)
    (hz : q * (10 : ℚ) ^ ((5 : ℤ) - e) = (z : ℚ)) : sixDigits q = q := by
  have hq : 0 < q := lt_of_lt_of_le (by positivity) h1
  have hlog : Int.log 10 q = e := log10_unique q e h1 h2
  unfold sixDigits
  rw [if_neg hq.ne', if_neg (not_lt.mpr hq.le)]
  rw [hlog, hz, roundEven_intCast, ← hz]
  rw [mul_div_assoc, div_self (ne_of_gt (by positivity)), mul_one]

/-- 1 is a fixed point of six-significant-digit formatting. -/
theorem sixDigits_one : sixDigits 1 = 1 := by
  refine sixDigits_eq_self 0 (by norm_num) (by norm_num) 100000 ?_
  norm_num

/-- 3/2 (printed `1.5`) is a fixed point of six-significant-digit
formatting. -/
theorem sixDigits_32 : sixDigits (3/2) = 3/2 := by
  refine sixDigits_eq_self 0 (by norm_num) (by norm_num) 150000 ?_
  norm_num

/-- C1 (amended): for every reachable digest whose compression survives
`absl::StrCat`'s six-significant-digit formatting exactly (in particular any
compression with at most six significant decimal digits),
`FromString(ToString())` succeeds and reproduces the serialized state's
compression, count, min, max and sum exactly; the centroid sequence is
reproduced whenever the merged centroid means are pairwise distinct (with
equal means the re-merge can reorder equal-mean centroids, see the
counterexample). -/
theorem C1_round_trip (s : TDigest) (h : TDReachable s)
    (hsix : sixDigits s.compression = s.compression) :
    ∃ s2 : TDigest,
      TDigest.fromTokens grpcFits s (s.toStringS grpcFits).1 = Except.ok s2 ∧
      s2.compression = ((s.toStringS grpcFits).2).compression ∧
      s2.count = ((s.toStringS grpcFits).2).count ∧
      s2.min = ((s.toStringS grpcFits).2).min ∧
      s2.max = ((s.toStringS grpcFits).2).max ∧
      s2.sum = ((s.toStringS grpcFits).2).sum ∧
      (((s.toStringS grpcFits).2).centroids.Pairwise (fun a b => a.mean ≠ b.mean) →
        s2.centroids = ((s.toStringS grpcFits).2).centroids) := by
  have hWF := TDReachable_WF h
  have hcpos := hWF.cpos
  have hclt : ¬ s.compression < 0 := not_lt.mpr (le_of_lt hcpos)
  have hcnon := hWF.count_nonneg
  by_cases hc0 : s.count = 0
  · rw [toStringS_eval0 grpcFits hc0]
    dsimp only
    rw [hsix]
    obtain ⟨hcent, _, hmin, hmax, hsum⟩ := hWF.emptyCase hc0
    refine ⟨emptyTD s.compression,
      fromTokens_empty grpcFits s s.compression hclt, ?_, ?_, ?_, ?_, ?_, ?_⟩
    · show BoundedCompression s.compression = s.compression
      exact BoundedCompression_self hWF.cbound
    · show (0 : ℤ) = s.count
      omega
    · show dblMax = s.min
      exact hmin.symm
    · show -dblMax = s.max
      exact hmax.symm
    · show (0 : ℚ) = s.sum
      exact hsum.symm
    · intro _
      show ([] : List CentroidPod) = s.centroids
      exact hcent.symm
  · by_cases hc1 : s.count = 1
    · rw [toStringS_eval1 grpcFits hc1]
      dsimp only
      rw [hsix]
      obtain ⟨v, hsing⟩ := count_one_single hWF.countsPos'
        (by rw [← hWF.countSum']; exact hc1)
      have hhead : s.centroids.headI.mean = v := by rw [hsing]; rfl
      have hmemv : (⟨v, 1⟩ : CentroidPod) ∈ s.centroids ++ ([] : List CentroidPod) := by
        rw [hsing]
        simp
      have hvb : |v| ≤ dblMax := hWF.meansBound ⟨v, 1⟩ hmemv
      have habs := abs_le.mp hvb
      have hsc := hWF.singleCase ⟨v, 1⟩ hmemv hc1
      have hceil : (1 : ℤ) ≤ ⌈BoundedCompression s.compression⌉ := by
        rw [BoundedCompression_self hWF.cbound]
        exact Int.ceil_pos.mpr hcpos
      have hbatch : ¬ (emptyTD s.compression).unmerged + 1 =
          (emptyTD s.compression).batchSize := by
        rw [emptyTD_batchSize]
        show ¬ (0 : ℤ) + 1 = 8 * ⌈BoundedCompression s.compression⌉
        omega
      have hadd := add_eval grpcFits (emptyTD s.compression) s.centroids.headI.mean 1
        (by norm_num) hbatch
      refine ⟨(emptyTD s.compression).add grpcFits s.centroids.headI.mean 1,
        fromTokens_single grpcFits s s.compression s.centroids.headI.mean hclt,
        ?_, ?_, ?_, ?_, ?_, ?_⟩
      · rw [hadd]
        show BoundedCompression s.compression = s.compression
        exact BoundedCompression_self hWF.cbound
      · rw [hadd]
        show (0 : ℤ) + 1 = s.count
        omega
      · rw [hadd]
        show Min.min (emptyTD s.compression).min s.centroids.headI.mean = s.min
        rw [hhead]
        show Min.min dblMax v = s.min
        rw [min_eq_right habs.2]
        exact hsc.1.symm
      · rw [hadd]
        show Max.max (emptyTD s.compression).max s.centroids.headI.mean = s.max
        rw [hhead]
        show Max.max (-dblMax) v = s.max
        rw [max_eq_right (by linarith [habs.1])]
        exact hsc.2.1.symm
      · rw [hadd]
        show (0 : ℚ) + s.centroids.headI.mean * ((1 : ℤ) : ℚ) = s.sum
        rw [hhead, hsc.2.2]
        push_cast
        ring
      · intro _
        rw [hadd]
        show ([] : List CentroidPod) ++ [⟨s.centroids.headI.mean, 1⟩] = s.centroids
        rw [hhead, hsing]
        simp
    · have hgt1 : ¬ s.count ≤ 1 := by omega
      rw [toStringS_eval2 grpcFits hgt1]
      dsimp only
      have hsix1 : sixDigits (s.doMerge grpcFits).compression =
          (s.doMerge grpcFits).compression := by
        rw [doMerge_compression]
        exact hsix
      rw [hsix1]
      have hdm := WFx_doMerge hWF
      have hWF1 : WF (s.doMerge grpcFits) := hdm.1
      have hu1 : (s.doMerge grpcFits).unmerged = 0 := hdm.2
      have hre1 : TDReachable (s.doMerge grpcFits) := TDReachable.domerge h
      have hM1 := MergedInv_reachable hre1 hu1
      have hcount1 : (s.doMerge grpcFits).count = s.count := doMerge_count grpcFits s
      have hcpos1 : 0 < (s.doMerge grpcFits).compression := hWF1.cpos
      have hclt1 : ¬ (s.doMerge grpcFits).compression < 0 := not_lt.mpr (le_of_lt hcpos1)
      have hLne : (s.doMerge grpcFits).centroids ≠ [] := by
        intro hnil
        have hcs := hWF1.countSum'
        rw [hnil] at hcs
        simp [sumCounts] at hcs
        omega
      obtain ⟨p0, P, hLP⟩ := List.exists_cons_of_ne_nil hLne
      have hcnts1 : ∀ x ∈ (s.doMerge grpcFits).centroids, 1 ≤ x.count := hWF1.countsPos'
      have hbound := hWF1.mergedBound hu1
      have hceil1 : (1 : ℤ) ≤ ⌈(s.doMerge grpcFits).compression⌉ := Int.ceil_pos.mpr hcpos1
      have hbatchE : (emptyTD (s.doMerge grpcFits).compression).batchSize =
          8 * ⌈(s.doMerge grpcFits).compression⌉ := by
        rw [emptyTD_batchSize, BoundedCompression_self hWF1.cbound]
      obtain ⟨s', hp1, hp2, hp3, hp4, hp5, hp6⟩ :=
        parseCentroids_run grpcFits (s.doMerge grpcFits).centroids
          (emptyTD (s.doMerge grpcFits).compression) hcnts1
          (le_refl 0)
          (by
            rw [hbatchE]
            show (0 : ℤ) + ((s.doMerge grpcFits).centroids.length : ℤ) <
              8 * ⌈(s.doMerge grpcFits).compression⌉
            omega)
      have hs'c : s'.centroids = (s.doMerge grpcFits).centroids := by
        rw [hp2]
        show ([] : List CentroidPod) ++ _ = _
        simp
      have hs'count : s'.count = (s.doMerge grpcFits).count := by
        rw [hp3]
        show (0 : ℤ) + sumCounts (s.doMerge grpcFits).centroids = _
        rw [← hWF1.countSum']
        ring
      have hs'comp : s'.compression = (s.doMerge grpcFits).compression := by
        rw [hp4]
        show BoundedCompression (s.doMerge grpcFits).compression = _
        exact BoundedCompression_self hWF1.cbound
      have hs'un : s'.unmerged = ((s.doMerge grpcFits).centroids.length : ℤ) := by
        rw [hp6]
        show (0 : ℤ) + _ = _
        ring
      have hs'unne : ¬ s'.unmerged = 0 := by
        intro habs
        rw [hs'un, hLP] at habs
        simp only [List.length_cons] at habs
        push_cast at habs
        omega
      have hre' : TDReachable s' := by
        refine parseCentroids_reachable _ (emptyTD (s.doMerge grpcFits).compression) s'
          (TDReachable.init _ hcpos1) ?_ hp1
        intro m cnt hmem
        simp only [List.mem_map] at hmem
        obtain ⟨x, hx, hxe⟩ := hmem
        cases hxe
        constructor
        · have := hcnts1 x hx
          omega
        · exact hWF1.meansBound x (List.mem_append.mpr (Or.inl hx))
      have hdm2 := WFx_doMerge (TDReachable_WF hre')
      have hu2 : (s'.doMerge grpcFits).unmerged = 0 := hdm2.2
      have hM2 := MergedInv_reachable (TDReachable.domerge hre') hu2
      have hfits : grpcFits s'.compression s'.count =
          grpcFits (s.doMerge grpcFits).compression (s.doMerge grpcFits).count := by
        rw [hs'comp, hs'count]
      cases hd : sortCentroids s'.centroids with
      | nil =>
        exfalso
        have hperm := sortCentroids_perm s'.centroids
        rw [hd] at hperm
        have h0 := hperm.symm.eq_nil
        rw [hs'c, hLP] at h0
        simp at h0
      | cons d0 D =>
        have hmr := doMerge_eq grpcFits s' d0 D hs'unne hd
        have hpermD : (d0 :: D).Perm (s.doMerge grpcFits).centroids := by
          have := sortCentroids_perm s'.centroids
          rw [hd, hs'c] at this
          exact this
        have hcntsD : ∀ x ∈ d0 :: D, 1 ≤ x.count := by
          intro x hx
          exact hcnts1 x (hpermD.mem_iff.mp hx)
        have hne2 : ¬ (s'.doMerge grpcFits).centroids = [] := by
          intro habs
          rw [hmr] at habs
          exact mergeRecOut_ne_nil _ D 0 d0.count d0 habs
        have hcount2 : (s.doMerge grpcFits).count = (s'.doMerge grpcFits).count := by
          rw [doMerge_count grpcFits s', hs'count]
        have hparse2 : parseCentroids grpcFits (emptyTD (s.doMerge grpcFits).compression)
            (Tok.pr p0.mean p0.count :: P.map fun p => Tok.pr p.mean p.count) = some s' := by
          have hcopy := hp1
          rw [hLP] at hcopy
          simp only [List.map_cons] at hcopy
          exact hcopy
        rw [hLP]
        refine ⟨{ s'.doMerge grpcFits with
              min := (s.doMerge grpcFits).min
              max := (s.doMerge grpcFits).max },
          fromTokens_pairs grpcFits s (s.doMerge grpcFits).compression
            (s.doMerge grpcFits).min (s.doMerge grpcFits).max (s.doMerge grpcFits).sum
            (s.doMerge grpcFits).count p0 P hclt1 s' hparse2 hne2 hcount2,
          ?_, ?_, rfl, rfl, ?_, ?_⟩
        · show (s'.doMerge grpcFits).compression = (s.doMerge grpcFits).compression
          rw [doMerge_compression grpcFits s', hs'comp]
        · show (s'.doMerge grpcFits).count = (s.doMerge grpcFits).count
          exact hcount2.symm
        · show (s'.doMerge grpcFits).sum = (s.doMerge grpcFits).sum
          rw [hM2.2, hM1.2]
          have hsm : sumMeanCounts (s'.doMerge grpcFits).centroids =
              sumMeanCounts (d0 :: D) := by
            rw [hmr]
            show sumMeanCounts (mergeRecOut (grpcFits s'.compression s'.count)
              0 d0.count d0 D) = _
            rw [sumMeanCounts_mergeRecOut (grpcFits s'.compression s'.count) D 0 d0.count d0
              (fun x hx => hcntsD x (List.mem_cons_of_mem _ hx))
              (hcntsD d0 (List.mem_cons_self _ _))]
            simp only [sumMeanCounts, List.map_cons, List.sum_cons]
          rw [hsm, sumMeanCounts_perm hpermD]
        · intro hdist
          rw [← hLP] at hdist ⊢
          have hsorted1 : (s.doMerge grpcFits).centroids.Sorted meanLE :=
            hWF1.mergedSorted hu1
          have hslex : (s.doMerge grpcFits).centroids.Sorted centLex :=
            sorted_centLex_of_distinct hsorted1 hdist
          have hsid : sortCentroids s'.centroids = s'.centroids := by
            rw [hs'c]
            exact sortCentroids_eq_self hslex
          have hDL : (s.doMerge grpcFits).centroids = d0 :: D := by
            rw [← hs'c, ← hsid, hd]
          have hcert := hM1.1
          rw [hDL] at hcert
          have hcert' : certs (grpcFits s'.compression s'.count) 0 d0.count D := by
            rw [hfits]
            exact hcert
          have hid : mergeRecOut (grpcFits s'.compression s'.count) 0 d0.count d0 D =
              d0 :: D :=
            mergeRecOut_of_certs _ (fun b x y => grpcFits_comm s'.compression s'.count b x y)
              D 0 d0.count d0 hcert'
          show (s'.doMerge grpcFits).centroids = (s.doMerge grpcFits).centroids
          rw [hmr]
          show mergeRecOut (grpcFits s'.compression s'.count) 0 d0.count d0 D =
            (s.doMerge grpcFits).centroids
          rw [hid, hDL]

/-- The fresh digest of compression 3/2. -/
theorem emptyTD_32 : emptyTD (3/2) = ⟨3/2, 16, [], 0, 0, dblMax, -dblMax, 0, 0⟩ := by
  unfold emptyTD MaxCentroids BoundedCompression kMaxCompression
  norm_num
  rw [show ⌈(3 / 2 : ℚ)⌉ = 2 from by norm_num [Int.ceil_eq_iff]]
  norm_num

/-- Three unit samples at value 1 into a compression-3/2 digest, before any
merge. -/
theorem triSample_pre :
    (((emptyTD (3/2)).add grpcFits 1 1).add grpcFits 1 1).add grpcFits 1 1 =
      { compression := 3/2, batchSize := 16, centroids := [⟨1, 1⟩, ⟨1, 1⟩, ⟨1, 1⟩],
        merged := 0, unmerged := 3, min := 1, max := 1, sum := 3, count := 3 } := by
  have h1 : (emptyTD (3/2)).add grpcFits 1 1 =
      ({ compression := 3/2, batchSize := 16, centroids := [⟨1, 1⟩], merged := 0,
         unmerged := 1, min := 1, max := 1, sum := 1, count := 1 } : TDigest) := by
    rw [emptyTD_32, add_eval grpcFits _ 1 1 (by norm_num) (by norm_num)]
    norm_num [dblMax]
  have h2 :
      ({ compression := 3/2, batchSize := 16, centroids := [⟨1, 1⟩], merged := 0,
          unmerged := 1, min := 1, max := 1, sum := 1, count := 1 } : TDigest).add
        grpcFits 1 1 =
      ({ compression := 3/2, batchSize := 16, centroids := [⟨1, 1⟩, ⟨1, 1⟩], merged := 0,
          unmerged := 2, min := 1, max := 1, sum := 2, count := 2 } : TDigest) := by
    rw [add_eval grpcFits _ 1 1 (by norm_num) (by norm_num)]
    norm_num
  have h3 :
      ({ compression := 3/2, batchSize := 16, centroids := [⟨1, 1⟩, ⟨1, 1⟩], merged := 0,
          unmerged := 2, min := 1, max := 1, sum := 2, count := 2 } : TDigest).add
        grpcFits 1 1 =
      ({ compression := 3/2, batchSize := 16, centroids := [⟨1, 1⟩, ⟨1, 1⟩, ⟨1, 1⟩],
          merged := 0, unmerged := 3, min := 1, max := 1, sum := 3,
          count := 3 } : TDigest) := by
    rw [add_eval grpcFits _ 1 1 (by norm_num) (by norm_num)]
    norm_num
  rw [h1, h2, h3]

/-- Merging the three equal samples at compression 3/2: the first two merge
(q_limit covers cumulative weight 2 but not 3), the third stays separate,
giving centroids (1,2), (1,1) in this order. -/
theorem triSample_merge :
    ({ compression := 3/2, batchSize := 16, centroids := [⟨1, 1⟩, ⟨1, 1⟩, ⟨1, 1⟩],
       merged := 0, unmerged := 3, min := 1, max := 1, sum := 3,
       count := 3 } : TDigest).doMerge grpcFits =
      { compression := 3/2, batchSize := 16, centroids := [⟨1, 2⟩, ⟨1, 1⟩], merged := 2,
        unmerged := 0, min := 1, max := 1, sum := 3, count := 3 } := by
  have h1 : mergeRecOut (grpcFits (3/2) 3) 0 1 ⟨1, 1⟩ [⟨1, 1⟩, ⟨1, 1⟩] =
      [⟨1, 2⟩, ⟨1, 1⟩] := by
    rw [mergeRecOut]
    dsimp only
    rw [show (1 : ℤ) + 1 = 2 from by norm_num, fits_32_3_0_2, if_pos rfl]
    rw [mergeRecOut]
    dsimp only
    rw [show (1 : ℤ) + 2 = 3 from by norm_num, fits_32_3_0_3, if_neg Bool.false_ne_true]
    rw [mergeRecOut]
    norm_num [welford]
  rw [doMerge_eq grpcFits _ ⟨1, 1⟩ [⟨1, 1⟩, ⟨1, 1⟩] (by decide) (by decide)]
  dsimp only
  rw [h1]
  norm_num [sumMeanCounts, List.getLastI]

/-- Serializing the three-sample digest: the merged state is serialized with
its centroid pairs (1,2), (1,1). -/
theorem triSample_toString :
    ({ compression := 3/2, batchSize := 16, centroids := [⟨1, 1⟩, ⟨1, 1⟩, ⟨1, 1⟩],
       merged := 0, unmerged := 3, min := 1, max := 1, sum := 3,
       count := 3 } : TDigest).toStringS grpcFits =
      ([Tok.sc (3/2) false, Tok.sc 1 false, Tok.sc 1 false, Tok.sc 3 false,
        Tok.sc ((3 : ℤ) : ℚ) true, Tok.pr 1 2, Tok.pr 1 1],
       { compression := 3/2, batchSize := 16, centroids := [⟨1, 2⟩, ⟨1, 1⟩], merged := 2,
         unmerged := 0, min := 1, max := 1, sum := 3, count := 3 }) := by
  rw [toStringS_eval2 grpcFits (by norm_num), triSample_merge]
  norm_num [sixDigits_32]

/-- Re-parsing the centroid pairs (1,2), (1,1) from a fresh compression-3/2
digest. -/
theorem triSample_reparse :
    parseCentroids grpcFits (emptyTD (3/2)) [Tok.pr 1 2, Tok.pr 1 1] =
      some
        ({ compression := 3/2, batchSize := 16, centroids := [⟨1, 2⟩, ⟨1, 1⟩],
           merged := 0, unmerged := 2, min := 1, max := 1, sum := 3,
           count := 3 } : TDigest) := by
  rw [parseCentroids, parseCentroids, parseCentroids]
  rw [emptyTD_32, add_eval grpcFits _ 1 2 (by norm_num) (by norm_num),
    add_eval grpcFits _ 1 1 (by norm_num) (by norm_num)]
  norm_num [dblMax]

/-- Merging the re-parsed digest: sorting is lexicographic in (mean, count),
so the equal-mean centroids come back as (1,1), (1,2) — the reverse of the
serialized order — and q_limit again keeps them separate. -/
theorem triSample_reparse_merge :
    ({ compression := 3/2, batchSize := 16, centroids := [⟨1, 2⟩, ⟨1, 1⟩], merged := 0,
       unmerged := 2, min := 1, max := 1, sum := 3,
       count := 3 } : TDigest).doMerge grpcFits =
      { compression := 3/2, batchSize := 16, centroids := [⟨1, 1⟩, ⟨1, 2⟩], merged := 2,
        unmerged := 0, min := 1, max := 1, sum := 3, count := 3 } := by
  have h1 : mergeRecOut (grpcFits (3/2) 3) 0 1 ⟨1, 1⟩ [⟨1, 2⟩] = [⟨1, 1⟩, ⟨1, 2⟩] := by
    rw [mergeRecOut]
    dsimp only
    rw [show (2 : ℤ) + 1 = 3 from by norm_num, fits_32_3_0_3, if_neg Bool.false_ne_true]
    rw [mergeRecOut]
  rw [doMerge_eq grpcFits _ ⟨1, 1⟩ [⟨1, 2⟩] (by decide) (by decide)]
  dsimp only
  rw [h1]
  norm_num [sumMeanCounts, List.getLastI]

/-- C1 counterexample: three `Add(1, 1)` calls at compression 3/2 merge to
the centroid sequence (1,2), (1,1); `FromString(ToString())` succeeds but
returns the centroid sequence (1,1), (1,2) — the literal claim's "identical
merged centroid sequence" fails for equal-mean centroids. -/
theorem C1_counterexample :
    ∃ s2 : TDigest,
      TDigest.fromTokens grpcFits
          ((((emptyTD (3/2)).add grpcFits 1 1).add grpcFits 1 1).add grpcFits 1 1)
          (((((emptyTD (3/2)).add grpcFits 1 1).add grpcFits 1 1).add grpcFits 1
            1).toStringS grpcFits).1 = Except.ok s2 ∧
      s2.centroids ≠
        ((((((emptyTD (3/2)).add grpcFits 1 1).add grpcFits 1 1).add grpcFits 1
          1).toStringS grpcFits).2).centroids := by
  rw [triSample_pre, triSample_toString]
  dsimp only
  refine ⟨_, fromTokens_pairs grpcFits _ (3/2) 1 1 3 3 ⟨1, 2⟩ [⟨1, 1⟩] (by norm_num) _
    triSample_reparse ?_ ?_, ?_⟩
  · rw [triSample_reparse_merge]
    simp
  · rw [triSample_reparse_merge]
  · rw [triSample_reparse_merge]
    decide

/-- Witness for C1: the empty digest of compression 1. -/
theorem C1_round_trip_witness :
    TDReachable (emptyTD 1) ∧
    sixDigits (emptyTD 1).compression = (emptyTD 1).compression ∧
    ∃ s2 : TDigest,
      TDigest.fromTokens grpcFits (emptyTD 1) ((emptyTD 1).toStringS grpcFits).1 =
        Except.ok s2 ∧
      s2.compression = (((emptyTD 1).toStringS grpcFits).2).compression ∧
      s2.count = (((emptyTD 1).toStringS grpcFits).2).count ∧
      s2.min = (((emptyTD 1).toStringS grpcFits).2).min ∧
      s2.max = (((emptyTD 1).toStringS grpcFits).2).max ∧
      s2.sum = (((emptyTD 1).toStringS grpcFits).2).sum ∧
      ((((emptyTD 1).toStringS grpcFits).2).centroids.Pairwise
          (fun a b => a.mean ≠ b.mean) →
        s2.centroids = (((emptyTD 1).toStringS grpcFits).2).centroids) := by
  have hinit : TDReachable (emptyTD 1) := TDReachable.init 1 (by norm_num)
  have hsix' : sixDigits (emptyTD 1).compression = (emptyTD 1).compression := by
    rw [show (emptyTD 1).compression = 1 from by rw [emptyTD_one]]
    exact sixDigits_one
  exact ⟨hinit, hsix', C1_round_trip (emptyTD 1) hinit hsix'⟩

end GrpcCore












